import Mathlib

/-!
# PipelineStateViewer

A shallow embedding of `qrenderdoc/Windows/PipelineState/PipelineStateViewer.cpp`:

* the panel switchboard (four child views, one active), with the persisted
  `"type"` field and the capture callbacks;
* the HTML exporter, over a model of `QXmlStreamWriter` as a stack of open
  elements and a list of written tokens;
* the `#include` resolver loop of the `EditShader` save callback, over
  `QString` modelled as a list of characters.

Pointers are `Option Nat` (`none` is `NULL`); an index returned by
`indexOf` is `Option Nat` (`none` is `-1`).  Buffers are assumed shorter than
`2^31` characters, so `int` arithmetic does not wrap.
-/

namespace PipelineStateViewer

/-! ## The panel switchboard -/

/-- The capture API enumeration `GraphicsAPI` of the replay interface. -/
inductive GraphicsAPI where
  | D3D11
  | D3D12
  | OpenGL
  | Vulkan
deriving DecidableEq, Repr

/-- What the viewer does to its child views, in order: `new`, `delete`, and the
three forwarded callbacks.  A child is named by its address. -/
inductive Event where
  | created (api : GraphicsAPI) (p : Nat)
  | deleted (p : Nat)
  | logfileLoaded (p : Nat)
  | logfileClosed (p : Nat)
  | eventChanged (p : Nat) (eventID : Nat)
deriving DecidableEq, Repr

/-- The members of `PipelineStateViewer` together with the two fields of the
capture context it reads and writes (`m_Ctx.APIProps().pipelineType` and
`m_Ctx.CurPipelineState().DefaultType`), the allocator's next fresh address and
the trace of events on child views. -/
structure Viewer where
  m_D3D11 : Option Nat
  m_D3D12 : Option Nat
  m_GL : Option Nat
  m_Vulkan : Option Nat
  m_Current : Option Nat
  pipelineType : GraphicsAPI
  DefaultType : GraphicsAPI
  nextObject : Nat
  trace : List Event
deriving DecidableEq, Repr

/-- The statement `delete p;`: nothing for `NULL`. -/
def deleteChild (p : Option Nat) (trace : List Event) : List Event :=
  match p with
  | none => trace
  | some a => trace ++ [Event.deleted a]

/-- Embeds `PipelineStateViewer::reset`. -/
def reset (v : Viewer) : Viewer :=
  { v with
    trace := deleteChild v.m_Vulkan (deleteChild v.m_GL
      (deleteChild v.m_D3D12 (deleteChild v.m_D3D11 v.trace)))
    m_D3D11 := none
    m_D3D12 := none
    m_GL := none
    m_Vulkan := none
    m_Current := none }

/-- Embeds `PipelineStateViewer::setToD3D11`. -/
def setToD3D11 (v : Viewer) : Viewer :=
  if v.m_D3D11.isSome then v
  else
    let v := reset v
    { v with
      m_D3D11 := some v.nextObject
      m_Current := some v.nextObject
      DefaultType := GraphicsAPI.D3D11
      trace := v.trace ++ [Event.created GraphicsAPI.D3D11 v.nextObject]
      nextObject := v.nextObject + 1 }

/-- Embeds `PipelineStateViewer::setToD3D12`. -/
def setToD3D12 (v : Viewer) : Viewer :=
  if v.m_D3D12.isSome then v
  else
    let v := reset v
    { v with
      m_D3D12 := some v.nextObject
      m_Current := some v.nextObject
      DefaultType := GraphicsAPI.D3D12
      trace := v.trace ++ [Event.created GraphicsAPI.D3D12 v.nextObject]
      nextObject := v.nextObject + 1 }

/-- Embeds `PipelineStateViewer::setToGL`. -/
def setToGL (v : Viewer) : Viewer :=
  if v.m_GL.isSome then v
  else
    let v := reset v
    { v with
      m_GL := some v.nextObject
      m_Current := some v.nextObject
      DefaultType := GraphicsAPI.OpenGL
      trace := v.trace ++ [Event.created GraphicsAPI.OpenGL v.nextObject]
      nextObject := v.nextObject + 1 }

/-- Embeds `PipelineStateViewer::setToVulkan`. -/
def setToVulkan (v : Viewer) : Viewer :=
  if v.m_Vulkan.isSome then v
  else
    let v := reset v
    { v with
      m_Vulkan := some v.nextObject
      m_Current := some v.nextObject
      DefaultType := GraphicsAPI.Vulkan
      trace := v.trace ++ [Event.created GraphicsAPI.Vulkan v.nextObject]
      nextObject := v.nextObject + 1 }

/-- The constructor: all five pointers `NULL`, then `setToD3D11()`.  The two
context fields are whatever the context holds at that time. -/
def construct (pipelineType DefaultType : GraphicsAPI) : Viewer :=
  setToD3D11
    { m_D3D11 := none, m_D3D12 := none, m_GL := none, m_Vulkan := none,
      m_Current := none, pipelineType := pipelineType, DefaultType := DefaultType,
      nextObject := 0, trace := [] }

/-- Embeds `PipelineStateViewer::OnLogfileLoaded`. -/
def OnLogfileLoaded (v : Viewer) : Viewer :=
  let v :=
    if v.pipelineType = GraphicsAPI.D3D11 then setToD3D11 v
    else if v.pipelineType = GraphicsAPI.D3D12 then setToD3D12 v
    else if v.pipelineType = GraphicsAPI.OpenGL then setToGL v
    else if v.pipelineType = GraphicsAPI.Vulkan then setToVulkan v
    else v
  match v.m_Current with
  | some p => { v with trace := v.trace ++ [Event.logfileLoaded p] }
  | none => v

/-- Embeds `PipelineStateViewer::OnLogfileClosed`. -/
def OnLogfileClosed (v : Viewer) : Viewer :=
  match v.m_Current with
  | some p => { v with trace := v.trace ++ [Event.logfileClosed p] }
  | none => v

/-- Embeds `PipelineStateViewer::OnEventChanged`. -/
def OnEventChanged (v : Viewer) (eventID : Nat) : Viewer :=
  let v := if v.DefaultType ≠ v.pipelineType then OnLogfileLoaded v else v
  match v.m_Current with
  | some p => { v with trace := v.trace ++ [Event.eventChanged p eventID] }
  | none => v

/-- Embeds `PipelineStateViewer::GetCurrentAPI`. -/
def GetCurrentAPI (v : Viewer) : String :=
  if v.m_Current = v.m_D3D11 then "D3D11"
  else if v.m_Current = v.m_D3D12 then "D3D12"
  else if v.m_Current = v.m_GL then "OpenGL"
  else if v.m_Current = v.m_Vulkan then "Vulkan"
  else ""

/-- A `QVariantMap` whose values are strings, as a list of entries. -/
abbrev QVariantMap := List (String × String)

/-- The expression `map[key].toString()`: the empty string for a missing key. -/
def QVariantMap.value (m : QVariantMap) (key : String) : String :=
  (m.lookup key).getD ""

/-- Embeds `PipelineStateViewer::persistData`. -/
def persistData (v : Viewer) : QVariantMap :=
  [("type", GetCurrentAPI v)]

/-- Embeds `PipelineStateViewer::setPersistData`. -/
def setPersistData (v : Viewer) (data : QVariantMap) : Viewer :=
  let str := data.value "type"
  if str = "D3D11" then setToD3D11 v
  else if str = "D3D12" then setToD3D12 v
  else if str = "GL" then setToGL v
  else if str = "Vulkan" then setToVulkan v
  else v

/-- One call on the viewer.  `contextChanged` is the capture context taking new
values for the two fields the viewer reads (a capture being opened); it is the
environment's move, not a method of the viewer. -/
inductive Op where
  | setToD3D11
  | setToD3D12
  | setToGL
  | setToVulkan
  | setPersistData (data : QVariantMap)
  | OnLogfileLoaded
  | OnLogfileClosed
  | OnEventChanged (eventID : Nat)
  | contextChanged (pipelineType DefaultType : GraphicsAPI)

/-- Run one call. -/
def Op.run (v : Viewer) : Op → Viewer
  | Op.setToD3D11 => PipelineStateViewer.setToD3D11 v
  | Op.setToD3D12 => PipelineStateViewer.setToD3D12 v
  | Op.setToGL => PipelineStateViewer.setToGL v
  | Op.setToVulkan => PipelineStateViewer.setToVulkan v
  | Op.setPersistData data => PipelineStateViewer.setPersistData v data
  | Op.OnLogfileLoaded => PipelineStateViewer.OnLogfileLoaded v
  | Op.OnLogfileClosed => PipelineStateViewer.OnLogfileClosed v
  | Op.OnEventChanged eventID => PipelineStateViewer.OnEventChanged v eventID
  | Op.contextChanged p d => { v with pipelineType := p, DefaultType := d }

/-- The child pointer member that belongs to an API. -/
def Viewer.child (v : Viewer) : GraphicsAPI → Option Nat
  | GraphicsAPI.D3D11 => v.m_D3D11
  | GraphicsAPI.D3D12 => v.m_D3D12
  | GraphicsAPI.OpenGL => v.m_GL
  | GraphicsAPI.Vulkan => v.m_Vulkan

/-- Exactly the child view of `api` exists, at address `p`, and it is current. -/
def Viewer.ActiveIs (v : Viewer) (api : GraphicsAPI) (p : Nat) : Prop :=
  v.child api = some p ∧ (∀ other, other ≠ api → v.child other = none) ∧
    v.m_Current = some p

/-- Exactly one of the four child views exists and `m_Current` is that one. -/
def Viewer.ExactlyOneActive (v : Viewer) : Prop :=
  ∃ api p, v.ActiveIs api p

/-- The event is one of the three forwarded callbacks. -/
def Event.isCallback : Event → Bool
  | Event.created _ _ => false
  | Event.deleted _ => false
  | _ => true

/-! ## The HTML exporter -/

/-- One call on a `QXmlStreamWriter`, as it reaches the output. -/
inductive XmlToken where
  | startDocument
  | dtd (text : String)
  | startElement (name : String)
  | attribute (name value : String)
  | characters (text : String)
  | comment (text : String)
  | endElement (name : String)
  | endDocument
deriving DecidableEq, Repr

/-- The state of a `QXmlStreamWriter`: the stack of open elements (innermost
first) and the tokens written so far. -/
structure QXmlStreamWriter where
  tagStack : List String
  out : List XmlToken
deriving DecidableEq, Repr

namespace QXmlStreamWriter

/-- A writer on a freshly opened file. -/
def new : QXmlStreamWriter := { tagStack := [], out := [] }

/-- Append a token that opens or closes nothing. -/
def emit (xml : QXmlStreamWriter) (t : XmlToken) : QXmlStreamWriter :=
  { xml with out := xml.out ++ [t] }

/-- Models `QXmlStreamWriter::writeStartElement`. -/
def writeStartElement (xml : QXmlStreamWriter) (name : String) : QXmlStreamWriter :=
  { tagStack := name :: xml.tagStack, out := xml.out ++ [XmlToken.startElement name] }

/-- Models `QXmlStreamWriter::writeEndElement`: closes the innermost open element, and
does nothing when none is open. -/
def writeEndElement (xml : QXmlStreamWriter) : QXmlStreamWriter :=
  match xml.tagStack with
  | [] => xml
  | name :: rest => { tagStack := rest, out := xml.out ++ [XmlToken.endElement name] }

/-- Models `QXmlStreamWriter::writeAttribute`. -/
def writeAttribute (xml : QXmlStreamWriter) (name value : String) : QXmlStreamWriter :=
  xml.emit (XmlToken.attribute name value)

/-- Models `QXmlStreamWriter::writeCharacters`. -/
def writeCharacters (xml : QXmlStreamWriter) (text : String) : QXmlStreamWriter :=
  xml.emit (XmlToken.characters text)

/-- Models `QXmlStreamWriter::writeComment`. -/
def writeComment (xml : QXmlStreamWriter) (text : String) : QXmlStreamWriter :=
  xml.emit (XmlToken.comment text)

/-- Models `QXmlStreamWriter::writeDTD`. -/
def writeDTD (xml : QXmlStreamWriter) (text : String) : QXmlStreamWriter :=
  xml.emit (XmlToken.dtd text)

/-- Models `QXmlStreamWriter::writeStartDocument`. -/
def writeStartDocument (xml : QXmlStreamWriter) : QXmlStreamWriter :=
  xml.emit XmlToken.startDocument

/-- Models `QXmlStreamWriter::writeEndDocument`: closes every element still open. -/
def writeEndDocument (xml : QXmlStreamWriter) : QXmlStreamWriter :=
  { tagStack := [],
    out := xml.out ++ xml.tagStack.map XmlToken.endElement ++ [XmlToken.endDocument] }

end QXmlStreamWriter

/-- What `beginHTMLExport` reads from the capture context: the file name of the
log (`QFileInfo(m_Ctx.LogFilename()).fileName()`), the current event, the frame
number, the name of the current drawcall and the names of its ancestors in the
order the `parent` links are followed (nearest first). -/
structure ExportContext where
  logFileName : String
  curEvent : Nat
  frameNumber : Nat
  drawName : String
  parentNames : List String
deriving Repr

/-- The stylesheet written as a comment inside `style`. -/
def styleSheet : String :=
  "\n\n/* If you think this css is ugly/bad, open a pull request! */\n" ++
  "body \x7b margin: 20px; \x7d\n" ++
  "div.stage \x7b border: 1px solid #BBBBBB; border-radius: 5px; padding: 16px; margin-bottom: 32px; \x7d\n" ++
  "div.stage h1 \x7b text-decoration: underline; margin-top: 0px; \x7d\n" ++
  "div.stage table \x7b border: 1px solid #AAAAAA; border-collapse: collapse; \x7d\n" ++
  "div.stage table thead tr \x7b border-bottom: 1px solid #AAAAAA; background-color: #EEEEFF; \x7d\n" ++
  "div.stage table tr th \x7b border-right: 1px solid #AAAAAA; padding: 6px; \x7d\n" ++
  "div.stage table tr td \x7b border-right: 1px solid #AAAAAA; background-color: #EEEEEE; padding: 3px; \x7d\n\n"

/-- The `drawstack` loop of `beginHTMLExport`: every ancestor is pushed at the
front, so the outermost marker region comes first. -/
def drawstack (parentNames : List String) : List String :=
  parentNames.foldl (fun stack name => name :: stack) []

/-- The success path of `PipelineStateViewer::beginHTMLExport` (a file name was
chosen, its directory exists and the file opened): the tokens written to the
new writer before it is returned.  `api` is the value of `GetCurrentAPI()`. -/
def beginHTMLExport (ctx : ExportContext) (api : String) : QXmlStreamWriter :=
  let xml := QXmlStreamWriter.new
  let xml := xml.writeStartDocument
  let xml := xml.writeDTD "<!DOCTYPE html>"
  let xml := xml.writeStartElement "html"
  let xml := xml.writeAttribute "lang" "en"
  let title := ctx.logFileName ++ " EID " ++ toString ctx.curEvent ++ " - " ++ api ++
    " Pipeline export"
  let xml := xml.writeStartElement "head"
  let xml := xml.writeStartElement "meta"
  let xml := xml.writeAttribute "charset" "utf-8"
  let xml := xml.writeEndElement
  let xml := xml.writeStartElement "meta"
  let xml := xml.writeAttribute "http-equiv" "X-UA-Compatible"
  let xml := xml.writeAttribute "content" "IE=edge"
  let xml := xml.writeEndElement
  let xml := xml.writeStartElement "meta"
  let xml := xml.writeAttribute "name" "viewport"
  let xml := xml.writeAttribute "content" "width=device-width, initial-scale=1"
  let xml := xml.writeEndElement
  let xml := xml.writeStartElement "meta"
  let xml := xml.writeAttribute "name" "description"
  let xml := xml.writeAttribute "content" ""
  let xml := xml.writeEndElement
  let xml := xml.writeStartElement "meta"
  let xml := xml.writeAttribute "name" "author"
  let xml := xml.writeAttribute "content" ""
  let xml := xml.writeEndElement
  let xml := xml.writeStartElement "meta"
  let xml := xml.writeAttribute "http-equiv" "Content-Type"
  let xml := xml.writeAttribute "content" "text/html;charset=utf-8"
  let xml := xml.writeEndElement
  let xml := xml.writeStartElement "title"
  let xml := xml.writeCharacters title
  let xml := xml.writeEndElement
  let xml := xml.writeStartElement "style"
  let xml := xml.writeComment styleSheet
  let xml := xml.writeEndElement
  let xml := xml.writeEndElement
  let xml := xml.writeStartElement "body"
  let xml := xml.writeStartElement "h1"
  let xml := xml.writeCharacters title
  let xml := xml.writeEndElement
  let xml := xml.writeStartElement "h3"
  let context := "Frame " ++ toString ctx.frameNumber
  let context := (drawstack ctx.parentNames).foldl (fun c d => c ++ " > " ++ d) context
  let context := context ++ " => " ++ ctx.drawName
  let xml := xml.writeCharacters context
  let xml := xml.writeEndElement
  xml

/-- A table cell (`QVariant`): a boolean, or any other value given by its
`toString()`. -/
inductive QVariant where
  | bool (b : Bool)
  | other (text : String)
deriving DecidableEq, Repr

/-- The header loop of `exportHTMLTable`: one `th` per column. -/
def writeHeaderCells (xml : QXmlStreamWriter) (cols : List String) : QXmlStreamWriter :=
  cols.foldl (fun xml col =>
    ((xml.writeStartElement "th").writeCharacters col).writeEndElement) xml

/-- The loop for an empty row list: one `td` holding `-` per column. -/
def writeDashCells (xml : QXmlStreamWriter) (count : Nat) : QXmlStreamWriter :=
  (List.range count).foldl (fun xml _ =>
    ((xml.writeStartElement "td").writeCharacters "-").writeEndElement) xml

/-- The cell loop of one row. -/
def writeRowCells (xml : QXmlStreamWriter) (row : List QVariant) : QXmlStreamWriter :=
  row.foldl (fun xml el =>
    let xml := xml.writeStartElement "td"
    let xml := match el with
      | QVariant.bool b => xml.writeCharacters (if b then "True" else "False")
      | QVariant.other text => xml.writeCharacters text
    xml.writeEndElement) xml

/-- The row loop: one `tr` per row. -/
def writeRows (xml : QXmlStreamWriter) (rows : List (List QVariant)) : QXmlStreamWriter :=
  rows.foldl (fun xml row =>
    (writeRowCells (xml.writeStartElement "tr") row).writeEndElement) xml

/-- Embeds `PipelineStateViewer::exportHTMLTable` for a list of rows. -/
def exportHTMLTable (xml : QXmlStreamWriter) (cols : List String)
    (rows : List (List QVariant)) : QXmlStreamWriter :=
  let xml := xml.writeStartElement "table"
  let xml := xml.writeStartElement "thead"
  let xml := xml.writeStartElement "tr"
  let xml := writeHeaderCells xml cols
  let xml := xml.writeEndElement
  let xml := xml.writeEndElement
  let xml := xml.writeStartElement "tbody"
  let xml :=
    if rows.isEmpty then
      let xml := xml.writeStartElement "tr"
      let xml := writeDashCells xml cols.length
      xml.writeEndElement
    else
      writeRows xml rows
  let xml := xml.writeEndElement
  xml.writeEndElement

/-- Embeds `PipelineStateViewer::exportHTMLTable` for a single row. -/
def exportHTMLTableRow (xml : QXmlStreamWriter) (cols : List String)
    (row : List QVariant) : QXmlStreamWriter :=
  exportHTMLTable xml cols [row]

/-- Embeds `PipelineStateViewer::endHTMLExport`, up to the deletion of the file and the
writer. -/
def endHTMLExport (xml : QXmlStreamWriter) : QXmlStreamWriter :=
  let xml := xml.writeEndElement
  let xml := xml.writeEndElement
  xml.writeEndDocument

/-- A call of either overload of `exportHTMLTable`. -/
inductive TableCall where
  | manyRows (cols : List String) (rows : List (List QVariant))
  | oneRow (cols : List String) (row : List QVariant)
deriving Repr

/-- Run one table call. -/
def TableCall.run (xml : QXmlStreamWriter) : TableCall → QXmlStreamWriter
  | TableCall.manyRows cols rows => exportHTMLTable xml cols rows
  | TableCall.oneRow cols row => exportHTMLTableRow xml cols row

/-- An export session: `beginHTMLExport`, the table calls, `endHTMLExport`. -/
def exportSession (ctx : ExportContext) (api : String) (calls : List TableCall) :
    QXmlStreamWriter :=
  endHTMLExport (calls.foldl TableCall.run (beginHTMLExport ctx api))

/-- Replays the start-element and end-element tokens against a stack of open
elements: `some st` is the stack left when every end token closed the innermost
open element of the same name, `none` when one did not. -/
def nesting : List XmlToken → List String → Option (List String)
  | [], st => some st
  | XmlToken.startElement name :: ts, st => nesting ts (name :: st)
  | XmlToken.endElement name :: ts, st =>
    match st with
    | [] => none
    | top :: rest => if name = top then nesting ts rest else none
  | _ :: ts, st => nesting ts st

/-- The tokens form complete elements only: replayed from any stack they are
well nested and leave that stack as it was. -/
def Balanced (ts : List XmlToken) : Prop :=
  ∀ st, nesting ts st = some st

/-- The text written for a cell. -/
def cellText : QVariant → String
  | QVariant.bool b => if b then "True" else "False"
  | QVariant.other text => text

/-- The tokens between `<tbody>` and `</tbody>`. -/
def bodyTokens (cols : List String) (rows : List (List QVariant)) : List XmlToken :=
  if rows.isEmpty then
    XmlToken.startElement "tr" :: ((List.range cols.length).flatMap (fun _ =>
      XmlToken.startElement "td" :: ([XmlToken.characters "-"] ++ [XmlToken.endElement "td"]))
      ++ [XmlToken.endElement "tr"])
  else
    rows.flatMap (fun row =>
      XmlToken.startElement "tr" :: (row.flatMap (fun el =>
        XmlToken.startElement "td" :: ([XmlToken.characters (cellText el)] ++ [XmlToken.endElement "td"]))
        ++ [XmlToken.endElement "tr"]))

/-- The tokens between `<thead>` and `</thead>`. -/
def headTokens (cols : List String) : List XmlToken :=
  XmlToken.startElement "tr" :: (cols.flatMap (fun col =>
    XmlToken.startElement "th" :: ([XmlToken.characters col] ++ [XmlToken.endElement "th"]))
    ++ [XmlToken.endElement "tr"])

/-! ## The `#include` resolver of the `EditShader` save callback -/

/-- A `QString`, as the list of its characters. -/
abbrev QString := List Char

/-- A `QStringMap` (`QMap<QString, QString>`), as the list of its entries in key
order. -/
abbrev QStringMap := List (QString × QString)

/-- Models `QMap::contains`. -/
def contains (files : QStringMap) (key : QString) : Bool :=
  files.any (fun kv => kv.1 == key)

/-- Models `QMap::operator[]` on a `const` map: the value stored under the key, or an
empty string when the key is missing. -/
def value (files : QStringMap) (key : QString) : QString :=
  (files.lookup key).getD []

/-- Models `QMap::keys`. -/
def keys (files : QStringMap) : List QString :=
  files.map Prod.fst

/-- Models `compileSource[i]` on the non-const buffer: reading a `QCharRef` at or past
the end yields the NUL character. -/
def charAt (s : QString) (i : Nat) : Char :=
  s.getD i (Char.ofNat 0)

/-- The test `c == QLatin1Char(' ') || c == QLatin1Char('\t')`. -/
def isBlank (c : Char) : Bool :=
  c == ' ' || c == '\t'

/-- The search of `QString::indexOf`: the first position at or after `i` where
`pat` starts, `cs` being the text from position `i` on. -/
def findFrom (pat : QString) : QString → Nat → Option Nat
  | [], _ => none
  | c :: cs, i => if pat.isPrefixOf (c :: cs) then some i else findFrom pat cs (i + 1)

/-- Models `QString::indexOf(pat, pos)` for a non-empty pattern; `none` stands for `-1`. -/
def indexOf (s pat : QString) (pos : Nat) : Option Nat :=
  findFrom pat (s.drop pos) pos

/-- Models `QString::mid(pos, n)`. -/
def mid (s : QString) (pos n : Nat) : QString :=
  (s.drop pos).take n

/-- Models `QString::mid(pos)`. -/
def midFrom (s : QString) (pos : Nat) : QString :=
  s.drop pos

/-- Models `QString::left(n)`. -/
def left (s : QString) (n : Nat) : QString :=
  s.take n

/-- The literal `"#include"`; its length is `sizeof("#include") - 1`. -/
def includeLit : QString := ['#', 'i', 'n', 'c', 'l', 'u', 'd', 'e']

/-- The backward loop `while(ws >= 0 && (s[ws] == ' ' || s[ws] == '\t')) ws--;`
started at `ws`: the value of `ws` when it stops, `-1` when it ran off the
front of the buffer. -/
def scanBack (s : QString) : Nat → Int
  | 0 => if isBlank (charAt s 0) then -1 else 0
  | ws + 1 => if isBlank (charAt s (ws + 1)) then scanBack s ws else ((ws + 1 : Nat) : Int)

/-- The forward loop `while(s[ws] == ' ' || s[ws] == '\t') ws++;` with a bound
on the number of rounds. -/
def skipBlanksAux (s : QString) : Nat → Nat → Nat
  | 0, ws => ws
  | fuel + 1, ws => if isBlank (charAt s ws) then skipBlanksAux s fuel (ws + 1) else ws

/-- The forward loop `while(s[ws] == ' ' || s[ws] == '\t') ws++;`.  It stops at
the end of the buffer at the latest, where the character read is NUL, so
`s.length + 1 - ws` rounds are enough. -/
def skipBlanks (s : QString) (ws : Nat) : Nat :=
  skipBlanksAux s (s.length + 1 - ws) ws

/-- Library model of `QFileInfo(path).fileName()`: the name of the file without
the path, that is the text after the last `/`. -/
def fileName (path : QString) : QString :=
  (path.reverse.takeWhile (fun c => c != '/')).reverse

/-- Library model of `a.compare(b, Qt::CaseInsensitive) == 0`: the two strings
are equal once every character is folded to lower case. -/
def equalsIgnoreCase (a b : QString) : Bool :=
  a.map Char.toLower == b.map Char.toLower

/-- The text `QFormatStr("// Can't find file %1\n").arg(fname)`. -/
def cantFind (fname : QString) : QString :=
  "// Can't find file ".toList ++ fname ++ ['\n']

/-- The lookup of the text to substitute for `#include "fname"`: the exact key
first, otherwise the first key with the same file name ignoring case, and the
`Can't find file` comment when the text found that way is empty. -/
def lookupInclude (updatedfiles : QStringMap) (fname : QString) : QString :=
  if contains updatedfiles fname then
    value updatedfiles fname
  else
    let search := fileName fname
    let fileText :=
      match (keys updatedfiles).find? (fun k => equalsIgnoreCase (fileName k) search) with
      | some k => value updatedfiles k
      | none => []
    if fileText.isEmpty then cantFind fname else fileText

/-- What one round of the `while(offs >= 0)` loop does. -/
inductive Round where
  /-- The statement `continue`, with `offs` set to the next occurrence. -/
  | skip (offs : Option Nat)
  /-- The statements `viewer->ShowErrors(text); return;` -/
  | showErrors (text : QString)
  /-- The buffer `compileSource` replaced; the scan restarts from the beginning. -/
  | expand (compileSource : QString)
deriving DecidableEq, Repr

/-- The error text of a malformed directive. -/
def invalidDirective (line : QString) : QString :=
  "Invalid #include directive found:\r\n".toList ++ line

/-- The part of the loop body that follows the validity scan, for an occurrence
that was not skipped; `ws` is the value the backward scan left. -/
def expandDirective (updatedfiles : QStringMap) (compileSource : QString) (offs : Nat)
    (ws : Int) : Round :=
  let start : Nat := (ws + 1).toNat
  let found := indexOf compileSource ['\n'] (start + 1)
  let lineEnd : Nat := found.getD compileSource.length
  let tail : Bool := found.isSome
  let ws : Nat := skipBlanks compileSource (offs + includeLit.length)
  let line := mid compileSource offs (lineEnd - offs + 1)
  if charAt compileSource ws ≠ '<' ∧ charAt compileSource ws ≠ '"' then
    Round.showErrors (invalidDirective line)
  else
    match indexOf compileSource [if charAt compileSource ws = '"' then '"' else '>']
        (ws + 1) with
    | none => Round.showErrors (invalidDirective line)
    | some endPos =>
      let fname := mid compileSource (ws + 1) (endPos - ws - 1)
      let fileText := lookupInclude updatedfiles fname
      Round.expand (left compileSource offs ++ ['\n', '\n'] ++ fileText ++ ['\n', '\n'] ++
        (if tail then midFrom compileSource (lineEnd + 1) else []))

/-- The body of the `while(offs >= 0)` loop, for the buffer `compileSource` and
an occurrence `offs` of `"#include"`: the validity scan, then either `continue`
with the next occurrence or the expansion of the directive. -/
def loopBody (updatedfiles : QStringMap) (compileSource : QString) (offs : Nat) : Round :=
  let ws : Int := scanBack compileSource (offs - 1)
  if ws > 0 ∧ charAt compileSource ws.toNat ≠ '\n' then
    Round.skip (indexOf compileSource includeLit (offs + 1))
  else
    expandDirective updatedfiles compileSource offs ws

/-- How the resolver loop ends. -/
inductive LoopResult where
  /-- A malformed directive was reported and the callback returned. -/
  | showErrors (text : QString)
  /-- The loop was left with `offs < 0`; the buffer is the resolved source. -/
  | resolved (compileSource : QString)
deriving DecidableEq, Repr

/-- The `while(offs >= 0)` loop from the state `(compileSource, offs)`, run for at
most `fuel` rounds: `none` when the loop is still running after `fuel` rounds. -/
def resolveLoop (updatedfiles : QStringMap) : Nat → QString → Option Nat → Option LoopResult
  | _, compileSource, none => some (LoopResult.resolved compileSource)
  | 0, _, some _ => none
  | fuel + 1, compileSource, some offs =>
    match loopBody updatedfiles compileSource offs with
    | Round.skip next => resolveLoop updatedfiles fuel compileSource next
    | Round.showErrors text => some (LoopResult.showErrors text)
    | Round.expand src => resolveLoop updatedfiles fuel src (indexOf src includeLit 0)

/-- The loop state `(compileSource, offs)` at the top of the loop after `rounds`
rounds, `none` when the loop has ended before. -/
def loopState (updatedfiles : QStringMap) :
    Nat → QString → Option Nat → Option (QString × Option Nat)
  | 0, compileSource, offs => some (compileSource, offs)
  | _ + 1, _, none => none
  | rounds + 1, compileSource, some offs =>
    match loopBody updatedfiles compileSource offs with
    | Round.skip next => loopState updatedfiles rounds compileSource next
    | Round.showErrors _ => none
    | Round.expand src => loopState updatedfiles rounds src (indexOf src includeLit 0)

/-- The buffers produced by the substitutions made in the first `fuel` rounds of
the loop, in order. -/
def expansions (updatedfiles : QStringMap) : Nat → QString → Option Nat → List QString
  | _, _, none => []
  | 0, _, some _ => []
  | fuel + 1, compileSource, some offs =>
    match loopBody updatedfiles compileSource offs with
    | Round.skip next => expansions updatedfiles fuel compileSource next
    | Round.showErrors _ => []
    | Round.expand src => src :: expansions updatedfiles fuel src (indexOf src includeLit 0)

/-- What the save callback ends with. -/
inductive Outcome where
  /-- The call `viewer->ShowErrors(text)` and return: no build is requested. -/
  | showErrors (text : QString)
  /-- The call of `BuildTargetShader` is requested for this source. -/
  | build (compileSource : QString)
deriving DecidableEq, Repr

/-- The save callback of `EditShader` up to the build request, with the resolver
loop run for at most `fuel` rounds. -/
def saveCallback (fuel : Nat) (updatedfiles : QStringMap) (mainfile : QString) :
    Option Outcome :=
  let compileSource := value updatedfiles mainfile
  match resolveLoop updatedfiles fuel compileSource (indexOf compileSource includeLit 0) with
  | none => none
  | some (LoopResult.showErrors text) => some (Outcome.showErrors text)
  | some (LoopResult.resolved compileSource) =>
    some (Outcome.build
      (if contains updatedfiles "@cmdline".toList then
        value updatedfiles "@cmdline".toList ++ ['\n', '\n'] ++ compileSource
      else compileSource))

/-- The pattern `pat` occurs in `s` at position `i`. -/
def occursAt (pat s : QString) (i : Nat) : Prop :=
  pat.isPrefixOf (s.drop i) = true ∧ i < s.length

/-- Every character between the start of the line of position `offs` (the
position after the preceding newline, or the start of the buffer) and `offs`
is a space or a tab. -/
def lineStart (s : QString) (offs : Nat) : Prop :=
  ∃ k, k ≤ offs ∧ (k = 0 ∨ charAt s (k - 1) = '\n') ∧
    ∀ j, k ≤ j → j < offs → isBlank (charAt s j) = true

/-- The text from position `offs` through the end of its line, the newline
included when there is one. -/
def lineFrom (s : QString) (offs : Nat) : QString :=
  (s.drop offs).takeWhile (fun c => c != '\n') ++
    ((s.drop offs).dropWhile (fun c => c != '\n')).take 1

/-- The number of positions of `s` at which `pat` occurs. -/
def countOcc (pat : QString) : QString → Nat
  | [] => 0
  | c :: cs => (if pat.isPrefixOf (c :: cs) then 1 else 0) + countOcc pat cs

/-- The text of the rest of a line: up to and including the first newline. -/
def lineOf (rest : QString) : QString :=
  rest.takeWhile (fun c => c != '\n') ++ (rest.dropWhile (fun c => c != '\n')).take 1

/-- The closing delimiter that matches an opening one. -/
def closing (d : Char) : Char := if d = '"' then '"' else '>'

/-- The loop body for an accepted occurrence, in terms of the text `pre` before
the occurrence and the text `rest` after the word `#include`. -/
def directiveRound (files : QStringMap) (pre rest : QString) : Round :=
  match rest.dropWhile isBlank with
  | [] => Round.showErrors (invalidDirective (includeLit ++ lineOf rest))
  | d :: after =>
    if d ≠ '<' ∧ d ≠ '"' then Round.showErrors (invalidDirective (includeLit ++ lineOf rest))
    else if closing d ∈ after then
      Round.expand (pre ++ ['\n', '\n'] ++
        lookupInclude files (after.takeWhile (fun c => c != closing d)) ++ ['\n', '\n'] ++
        (rest.dropWhile (fun c => c != '\n')).drop 1)
    else Round.showErrors (invalidDirective (includeLit ++ lineOf rest))

/-- The verdict of the validity scan in terms of the text `pre` before the
occurrence: going back over spaces and tabs, the scan stops on a character
that is not a newline and is not the first character of the buffer. -/
def skipped (pre : QString) : Bool :=
  match pre.reverse.dropWhile isBlank with
  | c :: _ :: _ => c != '\n'
  | _ => false

/-- The text that follows the word `#include` at `offs` and the spaces and tabs
after it. -/
def afterInclude (s : QString) (offs : Nat) : QString :=
  (s.drop (offs + includeLit.length)).dropWhile isBlank

/-- The directive at `offs` is malformed: the first character after the spaces
and tabs that follow `#include` is neither `<` nor `"` (or the buffer ends
there), or the closing delimiter matching it occurs nowhere later in the
buffer. -/
def malformed (s : QString) (offs : Nat) : Prop :=
  match afterInclude s offs with
  | [] => True
  | d :: after => (d ≠ '<' ∧ d ≠ '"') ∨ closing d ∉ after

/-- The file name of the directive whose text after the word `#include` is
`rest` does not run past the end of the line: when the directive has an
opening delimiter and a matching closing one, no newline stands between them. -/
def closes (rest : QString) : Prop :=
  match rest.dropWhile isBlank with
  | [] => True
  | d :: after =>
    (d = '<' ∨ d = '"') → closing d ∈ after →
      '\n' ∉ after.takeWhile (fun c => c != closing d)

/-- The directive at `offs` has its closing delimiter on the same line. -/
def closesOnLine (s : QString) (offs : Nat) : Prop :=
  closes (s.drop (offs + includeLit.length))

/-- The condition of the `continue` in the loop body: the validity scan rejects
the occurrence at `offs`. -/
def skipsAt (s : QString) (offs : Nat) : Prop :=
  scanBack s (offs - 1) > 0 ∧ charAt s (scanBack s (offs - 1)).toNat ≠ '\n'

/-- The file name the directive at `offs` gives: the text between the opening
delimiter and the next matching closing one. -/
def directiveName (s : QString) (offs : Nat) : QString :=
  match afterInclude s offs with
  | [] => []
  | d :: after => after.takeWhile (fun c => c != closing d)

/-- The key under whose text the lookup of a file name ends: the name itself
when it is a key, otherwise the first key with the same file name ignoring
case, if there is one. -/
def resolvedKey (updatedfiles : QStringMap) (fname : QString) : Option QString :=
  if contains updatedfiles fname then some fname
  else (keys updatedfiles).find? (fun k => equalsIgnoreCase (fileName k) (fileName fname))

/-- The text of a file that includes itself under the name `m`. -/
def selfInclude : QString := includeLit ++ [' ', '"', 'm', '"']

/-- A file map that holds `selfInclude` under the key `m`. -/
def selfFiles : QStringMap := [(['m'], selfInclude)]

/-- The buffer of the self-including file after some substitutions: the
directive, with `a` newlines before it and `b` newlines after it. -/
def selfBuffer (a b : Nat) : QString :=
  List.replicate a '\n' ++ (includeLit ++ ([' ', '"', 'm', '"'] ++ List.replicate b '\n'))

/-- Whether a pattern occurs at a position can be computed. -/
instance occursAtDecidable (pat s : QString) (i : Nat) : Decidable (occursAt pat s i) :=
  inferInstanceAs (Decidable (pat.isPrefixOf (s.drop i) = true ∧ i < s.length))

/-- Whether an occurrence starts its line can be computed. -/
instance lineStartDecidable (s : QString) (offs : Nat) : Decidable (lineStart s offs) :=
  inferInstanceAs (Decidable (∃ k, k ≤ offs ∧ (k = 0 ∨ charAt s (k - 1) = '\n') ∧
    ∀ j, k ≤ j → j < offs → isBlank (charAt s j) = true))

/-- Whether a directive is malformed can be computed. -/
instance malformedDecidable (s : QString) (offs : Nat) : Decidable (malformed s offs) := by
  show Decidable (match afterInclude s offs with
    | [] => True
    | d :: after => (d ≠ '<' ∧ d ≠ '"') ∨ closing d ∉ after)
  cases afterInclude s offs with
  | nil => exact isTrue trivial
  | cons d after => exact inferInstanceAs (Decidable ((d ≠ '<' ∧ d ≠ '"') ∨ closing d ∉ after))

/-- Whether a file name stays on its line can be computed. -/
instance closesDecidable (rest : QString) : Decidable (closes rest) := by
  show Decidable (match rest.dropWhile isBlank with
    | [] => True
    | d :: after => (d = '<' ∨ d = '"') → closing d ∈ after →
      '\n' ∉ after.takeWhile (fun c => c != closing d))
  cases rest.dropWhile isBlank with
  | nil => exact isTrue trivial
  | cons d after => exact inferInstanceAs (Decidable ((d = '<' ∨ d = '"') → closing d ∈ after →
      '\n' ∉ after.takeWhile (fun c => c != closing d)))

/-- Whether a directive closes on its line can be computed. -/
instance closesOnLineDecidable (s : QString) (offs : Nat) : Decidable (closesOnLine s offs) :=
  inferInstanceAs (Decidable (closes (s.drop (offs + includeLit.length))))

/-- Whether the validity scan rejects an occurrence can be computed. -/
instance skipsAtDecidable (s : QString) (offs : Nat) : Decidable (skipsAt s offs) :=
  inferInstanceAs (Decidable (scanBack s (offs - 1) > 0 ∧
    charAt s (scanBack s (offs - 1)).toNat ≠ '\n'))

/-- A file map whose main file has a character before `#include` at the very
start of the buffer. -/
def leadingCharFiles : QStringMap :=
  [("f".toList, "TEXT".toList), ("main".toList, "x#include \"f\"".toList)]

/-- A file map in which the included file is found by file name only and is
empty. -/
def emptyFileFiles : QStringMap :=
  [("dir/f.h".toList, []), ("main".toList, "#include \"f.h\"".toList)]

/-- A file map whose main file holds a well-formed directive followed by a
directive without a delimiter. -/
def malformedFiles : QStringMap :=
  [("a.h".toList, "int x;".toList),
   ("main".toList, "#include <a.h>\n  #include m\nrest".toList)]

/-- A file map with one header. -/
def headerFiles : QStringMap := [("a.h".toList, "int x;".toList)]

/-- A file map whose only file includes a path with its own file name. -/
def nameMatchFiles : QStringMap :=
  [("shader.hlsl".toList, "#include \"inc/shader.hlsl\"".toList)]

/-! ## Preparing a shader for editing -/

/-- The fields of `ShaderReflection::DebugInfo` that `PrepareShaderEditing` reads:
the entry point, the source files as pairs of name and text, and the index of
the file that holds the entry point. -/
structure ShaderDebugChunk where
  entryFunc : QString
  files : List (QString × QString)
  entryFile : Int
deriving DecidableEq, Repr

/-- Library model of `QString::toLower`: every character folded to lower case. -/
def toLower (s : QString) : QString :=
  s.map Char.toLower

/-- Models `files[key] = text` on a `QMap`: the text stored under an existing key
is replaced, a new key is inserted at its place in key order. -/
def assign : QStringMap → QString → QString → QStringMap
  | [], key, text => [(key, text)]
  | (k, v) :: rest, key, text =>
    if key = k then (key, text) :: rest
    else if key < k then (key, text) :: (k, v) :: rest
    else (k, v) :: assign rest key text

/-- The loop of `PrepareShaderEditing` over the debug-info files, from the state
`(uniqueFiles, files)`: a file whose lower-cased name is already in
`uniqueFiles` is dropped with a warning, any other is recorded. -/
def collectFiles : List (QString × QString) → List QString → QStringMap →
    List QString × QStringMap
  | [], uniqueFiles, files => (uniqueFiles, files)
  | s :: rest, uniqueFiles, files =>
    let filename := s.1
    if uniqueFiles.contains (toLower filename) then
      collectFiles rest uniqueFiles files
    else
      collectFiles rest (uniqueFiles ++ [toLower filename]) (assign files filename s.2)

/-- The reference arguments `entryFunc`, `files` and `mainfile` of
`PrepareShaderEditing`, with the value it returns. -/
structure EditingSetup where
  result : Bool
  entryFunc : QString
  files : QStringMap
  mainfile : QString
deriving DecidableEq, Repr

/-- Embeds `PipelineStateViewer::PrepareShaderEditing`; the three reference
arguments come in with the values the caller gave them and are returned. -/
def PrepareShaderEditing (shaderDetails : ShaderDebugChunk) (entryFunc : QString)
    (files : QStringMap) (mainfile : QString) : EditingSetup :=
  if ¬ shaderDetails.entryFunc.isEmpty ∧ ¬ shaderDetails.files.isEmpty then
    let files := (collectFiles shaderDetails.files [] files).2
    let entryFile : Int := shaderDetails.entryFile
    let entryFile : Int :=
      if entryFile < 0 ∨ entryFile ≥ shaderDetails.files.length then 0 else entryFile
    { result := true
      entryFunc := shaderDetails.entryFunc
      files := files
      mainfile := (shaderDetails.files.getD entryFile.toNat ([], [])).1 }
  else
    { result := false, entryFunc := entryFunc, files := files, mainfile := mainfile }

/-- A shader whose second source file, the entry file, has the name of the
first one in another case. -/
def caseVariantShader : ShaderDebugChunk :=
  { entryFunc := "main".toList
    files := [("A.hlsl".toList, "float4 a;".toList), ("a.hlsl".toList, "float4 main();".toList)]
    entryFile := 1 }

/-! ## Theorems: the panel switchboard -/

/-- A viewer whose GL panel is active: constructed, then `setToGL()`. -/
def glViewer : Viewer := setToGL (construct GraphicsAPI.OpenGL GraphicsAPI.D3D11)

/-- C1 (fails on the code): with the GL panel active `persistData()` stores
`"OpenGL"` under `"type"`, which is none of the strings `setPersistData` reads;
feeding the stored map to a freshly constructed viewer leaves its D3D11 panel
active and creates no GL panel. -/
theorem persist_roundtrip_GL_lost :
    glViewer.ActiveIs GraphicsAPI.OpenGL 1 ∧
    persistData glViewer = [("type", "OpenGL")] ∧
    (persistData glViewer).value "type" ≠ "GL" ∧
    setPersistData (construct GraphicsAPI.OpenGL GraphicsAPI.D3D11) (persistData glViewer)
      = construct GraphicsAPI.OpenGL GraphicsAPI.D3D11 ∧
    (setPersistData (construct GraphicsAPI.OpenGL GraphicsAPI.D3D11)
      (persistData glViewer)).ActiveIs GraphicsAPI.D3D11 0 := by
  refine ⟨⟨rfl, ?_, rfl⟩, by decide, by decide, by decide, ⟨rfl, ?_, rfl⟩⟩
  · intro other h; cases other <;> first | rfl | exact absurd rfl h
  · intro other h; cases other <;> first | rfl | exact absurd rfl h

theorem activeIs_setToD3D11 (v : Viewer) (h : v.ExactlyOneActive) :
    ∃ p, (setToD3D11 v).ActiveIs GraphicsAPI.D3D11 p := by
  obtain ⟨api, p, hc, ho, hcur⟩ := h
  unfold setToD3D11
  cases hd : v.m_D3D11 with
  | some q =>
    refine ⟨q, ?_⟩
    have hapi : api = GraphicsAPI.D3D11 := by
      by_contra hne
      have := ho GraphicsAPI.D3D11 (fun e => hne e.symm)
      simp [Viewer.child, hd] at this
    subst hapi
    simp only [Option.isSome_some, if_true]
    simp only [Viewer.child, hd] at hc
    injection hc with hc
    subst hc
    exact ⟨hd, ho, hcur⟩
  | none =>
    refine ⟨(reset v).nextObject, ?_⟩
    simp only [Option.isSome_none]
    refine ⟨rfl, ?_, rfl⟩
    intro other hne
    cases other <;> first | rfl | exact absurd rfl hne

theorem activeIs_setToD3D12 (v : Viewer) (h : v.ExactlyOneActive) :
    ∃ p, (setToD3D12 v).ActiveIs GraphicsAPI.D3D12 p := by
  obtain ⟨api, p, hc, ho, hcur⟩ := h
  unfold setToD3D12
  cases hd : v.m_D3D12 with
  | some q =>
    refine ⟨q, ?_⟩
    have hapi : api = GraphicsAPI.D3D12 := by
      by_contra hne
      have := ho GraphicsAPI.D3D12 (fun e => hne e.symm)
      simp [Viewer.child, hd] at this
    subst hapi
    simp only [Option.isSome_some, if_true]
    simp only [Viewer.child, hd] at hc
    injection hc with hc
    subst hc
    exact ⟨hd, ho, hcur⟩
  | none =>
    refine ⟨(reset v).nextObject, ?_⟩
    simp only [Option.isSome_none]
    refine ⟨rfl, ?_, rfl⟩
    intro other hne
    cases other <;> first | rfl | exact absurd rfl hne

theorem activeIs_setToGL (v : Viewer) (h : v.ExactlyOneActive) :
    ∃ p, (setToGL v).ActiveIs GraphicsAPI.OpenGL p := by
  obtain ⟨api, p, hc, ho, hcur⟩ := h
  unfold setToGL
  cases hd : v.m_GL with
  | some q =>
    refine ⟨q, ?_⟩
    have hapi : api = GraphicsAPI.OpenGL := by
      by_contra hne
      have := ho GraphicsAPI.OpenGL (fun e => hne e.symm)
      simp [Viewer.child, hd] at this
    subst hapi
    simp only [Option.isSome_some, if_true]
    simp only [Viewer.child, hd] at hc
    injection hc with hc
    subst hc
    exact ⟨hd, ho, hcur⟩
  | none =>
    refine ⟨(reset v).nextObject, ?_⟩
    simp only [Option.isSome_none]
    refine ⟨rfl, ?_, rfl⟩
    intro other hne
    cases other <;> first | rfl | exact absurd rfl hne

theorem activeIs_setToVulkan (v : Viewer) (h : v.ExactlyOneActive) :
    ∃ p, (setToVulkan v).ActiveIs GraphicsAPI.Vulkan p := by
  obtain ⟨api, p, hc, ho, hcur⟩ := h
  unfold setToVulkan
  cases hd : v.m_Vulkan with
  | some q =>
    refine ⟨q, ?_⟩
    have hapi : api = GraphicsAPI.Vulkan := by
      by_contra hne
      have := ho GraphicsAPI.Vulkan (fun e => hne e.symm)
      simp [Viewer.child, hd] at this
    subst hapi
    simp only [Option.isSome_some, if_true]
    simp only [Viewer.child, hd] at hc
    injection hc with hc
    subst hc
    exact ⟨hd, ho, hcur⟩
  | none =>
    refine ⟨(reset v).nextObject, ?_⟩
    simp only [Option.isSome_none]
    refine ⟨rfl, ?_, rfl⟩
    intro other hne
    cases other <;> first | rfl | exact absurd rfl hne

theorem exactlyOne_of_activeIs {v : Viewer} {api : GraphicsAPI}
    (h : ∃ p, v.ActiveIs api p) : v.ExactlyOneActive := by
  obtain ⟨p, hp⟩ := h
  exact ⟨api, p, hp⟩

theorem exactlyOne_congr (v w : Viewer) (h : v.ExactlyOneActive)
    (h1 : w.m_D3D11 = v.m_D3D11) (h2 : w.m_D3D12 = v.m_D3D12) (h3 : w.m_GL = v.m_GL)
    (h4 : w.m_Vulkan = v.m_Vulkan) (h5 : w.m_Current = v.m_Current) :
    w.ExactlyOneActive := by
  obtain ⟨api, p, hc, ho, hcur⟩ := h
  refine ⟨api, p, ?_, ?_, h5.trans hcur⟩
  · cases api <;> simp only [Viewer.child] at hc ⊢ <;> simp [*]
  · intro other hne
    have := ho other hne
    cases other <;> simp only [Viewer.child] at this ⊢ <;> simp [*]

theorem exactlyOne_OnLogfileLoaded (v : Viewer) (h : v.ExactlyOneActive) :
    (OnLogfileLoaded v).ExactlyOneActive := by
  have key : Viewer.ExactlyOneActive
      (if v.pipelineType = GraphicsAPI.D3D11 then setToD3D11 v
       else if v.pipelineType = GraphicsAPI.D3D12 then setToD3D12 v
       else if v.pipelineType = GraphicsAPI.OpenGL then setToGL v
       else if v.pipelineType = GraphicsAPI.Vulkan then setToVulkan v
       else v) := by
    split_ifs
    · exact exactlyOne_of_activeIs (activeIs_setToD3D11 v h)
    · exact exactlyOne_of_activeIs (activeIs_setToD3D12 v h)
    · exact exactlyOne_of_activeIs (activeIs_setToGL v h)
    · exact exactlyOne_of_activeIs (activeIs_setToVulkan v h)
    · exact h
  unfold OnLogfileLoaded
  generalize (if v.pipelineType = GraphicsAPI.D3D11 then setToD3D11 v
       else if v.pipelineType = GraphicsAPI.D3D12 then setToD3D12 v
       else if v.pipelineType = GraphicsAPI.OpenGL then setToGL v
       else if v.pipelineType = GraphicsAPI.Vulkan then setToVulkan v
       else v) = w at key ⊢
  simp only
  cases hw : w.m_Current with
  | none => exact key
  | some p => exact exactlyOne_congr w _ key rfl rfl rfl rfl hw.symm

theorem exactlyOne_run (v : Viewer) (op : Op) (h : v.ExactlyOneActive) :
    (op.run v).ExactlyOneActive := by
  cases op with
  | setToD3D11 => exact exactlyOne_of_activeIs (activeIs_setToD3D11 v h)
  | setToD3D12 => exact exactlyOne_of_activeIs (activeIs_setToD3D12 v h)
  | setToGL => exact exactlyOne_of_activeIs (activeIs_setToGL v h)
  | setToVulkan => exact exactlyOne_of_activeIs (activeIs_setToVulkan v h)
  | setPersistData data =>
    show (setPersistData v data).ExactlyOneActive
    unfold setPersistData
    simp only
    split_ifs
    · exact exactlyOne_of_activeIs (activeIs_setToD3D11 v h)
    · exact exactlyOne_of_activeIs (activeIs_setToD3D12 v h)
    · exact exactlyOne_of_activeIs (activeIs_setToGL v h)
    · exact exactlyOne_of_activeIs (activeIs_setToVulkan v h)
    · exact h
  | OnLogfileLoaded => exact exactlyOne_OnLogfileLoaded v h
  | OnLogfileClosed =>
    show (OnLogfileClosed v).ExactlyOneActive
    unfold OnLogfileClosed
    cases hw : v.m_Current with
    | none => simpa [hw] using h
    | some p => exact exactlyOne_congr v _ h rfl rfl rfl rfl hw.symm
  | OnEventChanged eventID =>
    show (OnEventChanged v eventID).ExactlyOneActive
    unfold OnEventChanged
    have key : Viewer.ExactlyOneActive
        (if v.DefaultType ≠ v.pipelineType then OnLogfileLoaded v else v) := by
      split_ifs
      · exact exactlyOne_OnLogfileLoaded v h
      · exact h
    generalize (if v.DefaultType ≠ v.pipelineType then OnLogfileLoaded v else v) = w at key ⊢
    simp only
    cases hw : w.m_Current with
    | none => exact key
    | some p => exact exactlyOne_congr w _ key rfl rfl rfl rfl hw.symm
  | contextChanged p d =>
    exact exactlyOne_congr v _ h rfl rfl rfl rfl rfl

theorem exactlyOne_construct (p d : GraphicsAPI) : (construct p d).ExactlyOneActive := by
  refine ⟨GraphicsAPI.D3D11, 0, rfl, ?_, rfl⟩
  intro other hne
  cases other <;> first | rfl | exact absurd rfl hne

/-- C2: after construction and after every sequence of calls (with the capture
context changing in between at will), exactly one of the four child views
exists, the other three are null, and `m_Current` is the existing one. -/
theorem exactly_one_active (p d : GraphicsAPI) (ops : List Op) :
    ∃ api q, (ops.foldl Op.run (construct p d)).child api = some q ∧
      (∀ other, other ≠ api → (ops.foldl Op.run (construct p d)).child other = none) ∧
      (ops.foldl Op.run (construct p d)).m_Current = some q := by
  have gen : ∀ (ops : List Op) (v : Viewer), v.ExactlyOneActive →
      (ops.foldl Op.run v).ExactlyOneActive := by
    intro ops
    induction ops with
    | nil => intro v h; exact h
    | cons op rest ih => intro v h; exact ih _ (exactlyOne_run v op h)
  exact gen ops _ (exactlyOne_construct p d)

/-- C3: from every state with exactly one active child view and for every capture
pipeline type `p`, `OnLogfileLoaded()` leaves the view of `p` active (address `q`),
appends to the trace only creations and deletions followed by exactly one
callback, `OnLogfileLoaded` on `q`, and when the view of `p` existed before, it
is the same object and nothing is created or deleted. -/
theorem onLogfileLoaded_selects (v : Viewer) (p : GraphicsAPI) (h : v.ExactlyOneActive) :
    ∃ q evs, (OnLogfileLoaded { v with pipelineType := p }).ActiveIs p q ∧
      (OnLogfileLoaded { v with pipelineType := p }).trace
        = v.trace ++ evs ++ [Event.logfileLoaded q] ∧
      (∀ e ∈ evs, e.isCallback = false) ∧
      (∀ q0, v.child p = some q0 → q = q0 ∧ evs = []) := by
  obtain ⟨api, q0, hc, ho, hcur⟩ := h
  rcases v with ⟨a, b, c, d, cur, pt, dt, n, tr⟩
  have h11 := ho GraphicsAPI.D3D11
  have h12 := ho GraphicsAPI.D3D12
  have hgl := ho GraphicsAPI.OpenGL
  have hvk := ho GraphicsAPI.Vulkan
  simp only [Viewer.child] at hc hcur h11 h12 hgl hvk
  subst hcur
  dsimp only
  by_cases hp : p = api
  · subst hp
    refine ⟨q0, [], ?_, ?_, by simp, ?_⟩ <;>
      cases p <;>
      simp only [ne_eq, reduceCtorEq, not_false_eq_true, forall_true_left,
        not_true_eq_false, IsEmpty.forall_iff] at h11 h12 hgl hvk <;> subst_vars
    all_goals first
      | (refine ⟨rfl, ?_, rfl⟩
         intro other hne
         cases other <;> first | rfl | exact absurd rfl hne)
      | simp [OnLogfileLoaded, setToD3D11, setToD3D12, setToGL, setToVulkan, Viewer.child]
  · refine ⟨n, [Event.deleted q0, Event.created p n], ?_, ?_, by simp [Event.isCallback], ?_⟩ <;>
      cases api <;> cases p <;>
      simp only [ne_eq, reduceCtorEq, not_false_eq_true, forall_true_left,
        not_true_eq_false, IsEmpty.forall_iff] at h11 h12 hgl hvk hp <;> subst_vars
    all_goals first
      | (refine ⟨rfl, ?_, rfl⟩
         intro other hne
         cases other <;> first | rfl | exact absurd rfl hne)
      | simp [OnLogfileLoaded, setToD3D11, setToD3D12, setToGL, setToVulkan, reset,
          deleteChild, Viewer.child]

/-- C3 at a concrete state: a freshly constructed viewer (D3D11 active) told that
the capture is Vulkan. -/
theorem onLogfileLoaded_selects_witness :
    (construct GraphicsAPI.D3D11 GraphicsAPI.D3D11).ExactlyOneActive ∧
    ∃ q evs, (OnLogfileLoaded { construct GraphicsAPI.D3D11 GraphicsAPI.D3D11 with
        pipelineType := GraphicsAPI.Vulkan }).ActiveIs GraphicsAPI.Vulkan q ∧
      (OnLogfileLoaded { construct GraphicsAPI.D3D11 GraphicsAPI.D3D11 with
        pipelineType := GraphicsAPI.Vulkan }).trace
        = (construct GraphicsAPI.D3D11 GraphicsAPI.D3D11).trace ++ evs
          ++ [Event.logfileLoaded q] ∧
      (∀ e ∈ evs, e.isCallback = false) ∧
      (∀ q0, (construct GraphicsAPI.D3D11 GraphicsAPI.D3D11).child GraphicsAPI.Vulkan
        = some q0 → q = q0 ∧ evs = []) :=
  ⟨exactlyOne_construct _ _,
   onLogfileLoaded_selects (construct GraphicsAPI.D3D11 GraphicsAPI.D3D11)
     GraphicsAPI.Vulkan (exactlyOne_construct _ _)⟩

/-! ## Theorems: the HTML exporter -/

open QXmlStreamWriter

theorem nesting_append (a b : List XmlToken) (st : List String) :
    nesting (a ++ b) st = (nesting a st).bind (nesting b) := by
  induction a generalizing st with
  | nil => simp [nesting]
  | cons t ts ih =>
    cases t with
    | endElement name =>
      cases st with
      | nil => simp [nesting]
      | cons top rest => by_cases h : name = top <;> simp [nesting, h, ih]
    | _ => simpa [nesting] using ih _

theorem balanced_nil : Balanced [] := fun _ => rfl

theorem balanced_append {a b : List XmlToken} (ha : Balanced a) (hb : Balanced b) :
    Balanced (a ++ b) := by
  intro st
  rw [nesting_append, ha st]
  exact hb st

theorem balanced_element (name : String) {ts : List XmlToken} (h : Balanced ts) :
    Balanced (XmlToken.startElement name :: (ts ++ [XmlToken.endElement name])) := by
  intro st
  simp only [nesting, nesting_append, h (name :: st), Option.some_bind, if_true]

theorem balanced_characters (text : String) : Balanced [XmlToken.characters text] :=
  fun _ => rfl

theorem balanced_flatMap {α : Type} (f : α → List XmlToken) (xs : List α)
    (h : ∀ x, Balanced (f x)) : Balanced (xs.flatMap f) := by
  induction xs with
  | nil => exact balanced_nil
  | cons x xs ih =>
    rw [List.flatMap_cons]
    exact balanced_append (h x) ih

theorem writeHeaderCells_eq (xml : QXmlStreamWriter) (cols : List String) :
    writeHeaderCells xml cols =
      { tagStack := xml.tagStack,
        out := xml.out ++ cols.flatMap (fun col =>
          XmlToken.startElement "th" :: ([XmlToken.characters col] ++ [XmlToken.endElement "th"])) } := by
  induction cols generalizing xml with
  | nil => simp [writeHeaderCells]
  | cons c cs ih =>
    have := ih (((xml.writeStartElement "th").writeCharacters c).writeEndElement)
    simp only [writeHeaderCells, List.foldl_cons] at this ⊢
    rw [this]
    simp [writeStartElement, writeCharacters, writeEndElement, emit]

theorem writeDashCells_eq (xml : QXmlStreamWriter) (count : Nat) :
    writeDashCells xml count =
      { tagStack := xml.tagStack,
        out := xml.out ++ (List.range count).flatMap (fun _ =>
          XmlToken.startElement "td" :: ([XmlToken.characters "-"] ++ [XmlToken.endElement "td"])) } := by
  unfold writeDashCells
  generalize List.range count = l
  induction l generalizing xml with
  | nil => simp
  | cons c cs ih =>
    simp only [List.foldl_cons]
    rw [ih]
    simp [writeStartElement, writeCharacters, writeEndElement, emit]

theorem writeRowCells_eq (xml : QXmlStreamWriter) (row : List QVariant) :
    writeRowCells xml row =
      { tagStack := xml.tagStack,
        out := xml.out ++ row.flatMap (fun el =>
          XmlToken.startElement "td" :: ([XmlToken.characters (cellText el)] ++ [XmlToken.endElement "td"])) } := by
  unfold writeRowCells
  induction row generalizing xml with
  | nil => simp
  | cons c cs ih =>
    simp only [List.foldl_cons]
    rw [ih]
    cases c <;> simp [writeStartElement, writeCharacters, writeEndElement, emit, cellText]

theorem writeRows_eq (xml : QXmlStreamWriter) (rows : List (List QVariant)) :
    writeRows xml rows =
      { tagStack := xml.tagStack,
        out := xml.out ++ rows.flatMap (fun row =>
          XmlToken.startElement "tr" :: (row.flatMap (fun el =>
            XmlToken.startElement "td" :: ([XmlToken.characters (cellText el)] ++ [XmlToken.endElement "td"]))
            ++ [XmlToken.endElement "tr"])) } := by
  unfold writeRows
  induction rows generalizing xml with
  | nil => simp
  | cons c cs ih =>
    simp only [List.foldl_cons]
    rw [ih, writeRowCells_eq]
    simp [writeStartElement, writeEndElement]

theorem balanced_headTokens (cols : List String) : Balanced (headTokens cols) :=
  balanced_element _ (balanced_flatMap _ _ fun _ => balanced_element _ (balanced_characters _))

theorem balanced_bodyTokens (cols : List String) (rows : List (List QVariant)) :
    Balanced (bodyTokens cols rows) := by
  unfold bodyTokens
  split_ifs
  · exact balanced_element _ (balanced_flatMap _ _ fun _ => balanced_element _ (balanced_characters _))
  · exact balanced_flatMap _ _ fun _ =>
      balanced_element _ (balanced_flatMap _ _ fun _ => balanced_element _ (balanced_characters _))

theorem exportHTMLTable_eq (xml : QXmlStreamWriter) (cols : List String)
    (rows : List (List QVariant)) :
    exportHTMLTable xml cols rows =
      { tagStack := xml.tagStack,
        out := xml.out ++ [XmlToken.startElement "table", XmlToken.startElement "thead"]
          ++ headTokens cols
          ++ [XmlToken.endElement "thead", XmlToken.startElement "tbody"]
          ++ bodyTokens cols rows
          ++ [XmlToken.endElement "tbody", XmlToken.endElement "table"] } := by
  unfold exportHTMLTable bodyTokens headTokens
  by_cases h : rows.isEmpty
  · simp [h, writeHeaderCells_eq, writeDashCells_eq, writeStartElement, writeEndElement]
  · simp [h, writeHeaderCells_eq, writeRows_eq, writeStartElement, writeEndElement]

theorem tableCall_eq (xml : QXmlStreamWriter) (call : TableCall) :
    (call.run xml).tagStack = xml.tagStack ∧
    ∃ head body, (call.run xml).out =
        xml.out ++ [XmlToken.startElement "table", XmlToken.startElement "thead"]
          ++ head ++ [XmlToken.endElement "thead", XmlToken.startElement "tbody"]
          ++ body ++ [XmlToken.endElement "tbody", XmlToken.endElement "table"] ∧
      Balanced head ∧ Balanced body := by
  cases call with
  | manyRows cols rows =>
    simp only [TableCall.run]
    rw [exportHTMLTable_eq]
    exact ⟨rfl, _, _, rfl, balanced_headTokens cols, balanced_bodyTokens cols rows⟩
  | oneRow cols row =>
    simp only [TableCall.run, exportHTMLTableRow]
    rw [exportHTMLTable_eq]
    exact ⟨rfl, _, _, rfl, balanced_headTokens cols, balanced_bodyTokens cols [row]⟩

theorem tableCalls_fold (calls : List TableCall) (xml : QXmlStreamWriter) :
    (calls.foldl TableCall.run xml).tagStack = xml.tagStack ∧
    ∃ ts, (calls.foldl TableCall.run xml).out = xml.out ++ ts ∧ Balanced ts := by
  induction calls generalizing xml with
  | nil => exact ⟨rfl, [], by simp, balanced_nil⟩
  | cons c cs ih =>
    obtain ⟨h1, ts, h2, h3⟩ := ih (c.run xml)
    obtain ⟨g1, hd, bd, g2, g3, g4⟩ := tableCall_eq xml c
    refine ⟨by simpa [g1] using h1, _, ?_, balanced_append (balanced_element "table"
      (balanced_append (balanced_element "thead" g3) (balanced_element "tbody" g4))) h3⟩
    simp only [List.foldl_cons, h2, g2]
    simp

theorem beginHTMLExport_tagStack (ctx : ExportContext) (api : String) :
    (beginHTMLExport ctx api).tagStack = ["body", "html"] := rfl

theorem beginHTMLExport_nesting (ctx : ExportContext) (api : String) :
    nesting (beginHTMLExport ctx api).out [] = some ["body", "html"] := by
  simp only [beginHTMLExport, QXmlStreamWriter.new, writeStartDocument, writeDTD,
    writeStartElement, writeAttribute, writeCharacters, writeComment, writeEndElement, emit,
    List.nil_append, List.cons_append, List.append_assoc, List.singleton_append]
  simp only [nesting, if_true]

theorem beginHTMLExport_head (ctx : ExportContext) (api : String) :
    XmlToken.endElement "head" ∈ (beginHTMLExport ctx api).out := by
  simp [beginHTMLExport, QXmlStreamWriter.new, writeStartDocument, writeDTD, writeStartElement,
    writeAttribute, writeCharacters, writeComment, writeEndElement, emit]

/-- C8: a successful `beginHTMLExport` leaves exactly `html` and `body` open (with
`head` written and closed, and all tokens so far well nested); every call of
either `exportHTMLTable` overload, from any writer state, leaves the stack of
open elements as it found it and appends one complete `table` element made of
a complete `thead` followed by a complete `tbody`; and `endHTMLExport` after any
sequence of table calls closes `body` and `html`, leaves no element open, and
the whole token sequence is well nested. -/
theorem html_export_well_nested (ctx : ExportContext) (api : String) (calls : List TableCall) :
    (beginHTMLExport ctx api).tagStack = ["body", "html"] ∧
    nesting (beginHTMLExport ctx api).out [] = some ["body", "html"] ∧
    XmlToken.endElement "head" ∈ (beginHTMLExport ctx api).out ∧
    (∀ (xml : QXmlStreamWriter) (call : TableCall),
      (call.run xml).tagStack = xml.tagStack ∧
      ∃ head body, (call.run xml).out =
          xml.out ++ [XmlToken.startElement "table", XmlToken.startElement "thead"]
            ++ head ++ [XmlToken.endElement "thead", XmlToken.startElement "tbody"]
            ++ body ++ [XmlToken.endElement "tbody", XmlToken.endElement "table"] ∧
        Balanced head ∧ Balanced body) ∧
    (exportSession ctx api calls).out =
      (calls.foldl TableCall.run (beginHTMLExport ctx api)).out ++
        [XmlToken.endElement "body", XmlToken.endElement "html", XmlToken.endDocument] ∧
    (exportSession ctx api calls).tagStack = [] ∧
    nesting (exportSession ctx api calls).out [] = some [] := by
  obtain ⟨h1, ts, h2, h3⟩ := tableCalls_fold calls (beginHTMLExport ctx api)
  rw [beginHTMLExport_tagStack] at h1
  have hout : (exportSession ctx api calls).out =
      (calls.foldl TableCall.run (beginHTMLExport ctx api)).out ++
        [XmlToken.endElement "body", XmlToken.endElement "html", XmlToken.endDocument] := by
    simp [exportSession, endHTMLExport, writeEndElement, writeEndDocument, h1]
  refine ⟨rfl, beginHTMLExport_nesting ctx api, beginHTMLExport_head ctx api, tableCall_eq,
    hout, rfl, ?_⟩
  rw [hout, h2, nesting_append, nesting_append, beginHTMLExport_nesting]
  simp only [Option.some_bind, h3 _]
  rfl

/-! ## Theorems: searching in a buffer -/

theorem charAt_eq_headD (s : QString) (i : Nat) :
    charAt s i = (s.drop i).headD (Char.ofNat 0) := by
  unfold charAt
  rw [List.getD_eq_getElem?_getD, List.headD_eq_head?_getD, List.head?_drop]

theorem charAt_append_left (a b : QString) (i : Nat) (h : i < a.length) :
    charAt (a ++ b) i = charAt a i := by
  unfold charAt
  rw [List.getD_eq_getElem?_getD, List.getD_eq_getElem?_getD, List.getElem?_append_left h]

theorem isBlank_nul : isBlank (Char.ofNat 0) = false := by decide

theorem isBlank_newline : isBlank '\n' = false := by decide

theorem findFrom_some {pat cs : QString} {i j : Nat} (h : findFrom pat cs i = some j) :
    i ≤ j ∧ j - i < cs.length ∧ pat.isPrefixOf (cs.drop (j - i)) = true ∧
      ∀ k, k < j - i → pat.isPrefixOf (cs.drop k) = false := by
  induction cs generalizing i with
  | nil => simp [findFrom] at h
  | cons c cs ih =>
    unfold findFrom at h
    by_cases hp : pat.isPrefixOf (c :: cs) = true
    · rw [if_pos hp] at h
      injection h with h
      subst h
      simp [hp]
    · rw [if_neg hp] at h
      obtain ⟨h1, h2, h3, h4⟩ := ih h
      have e : j - i = (j - (i + 1)) + 1 := by omega
      refine ⟨by omega, ?_, ?_, ?_⟩
      · rw [e]; simpa using h2
      · rw [e]; simpa using h3
      · intro k hk
        cases k with
        | zero => simpa only [List.drop_zero, Bool.not_eq_true] using hp
        | succ k => simpa using h4 k (by omega)

theorem findFrom_none {pat cs : QString} {i : Nat} (h : findFrom pat cs i = none) :
    ∀ k, k < cs.length → pat.isPrefixOf (cs.drop k) = false := by
  induction cs generalizing i with
  | nil => intro k hk; simp at hk
  | cons c cs ih =>
    unfold findFrom at h
    by_cases hp : pat.isPrefixOf (c :: cs) = true
    · rw [if_pos hp] at h; cases h
    · rw [if_neg hp] at h
      intro k hk
      cases k with
      | zero => simpa only [List.drop_zero, Bool.not_eq_true] using hp
      | succ k => simpa using ih h k (by simpa using hk)

theorem indexOf_some {s pat : QString} {pos j : Nat} (h : indexOf s pat pos = some j) :
    pos ≤ j ∧ occursAt pat s j ∧ ∀ k, pos ≤ k → k < j → ¬ occursAt pat s k := by
  unfold indexOf at h
  obtain ⟨h1, h2, h3, h4⟩ := findFrom_some h
  have hl : j < s.length := by
    rw [List.length_drop] at h2; omega
  refine ⟨h1, ⟨?_, hl⟩, ?_⟩
  · rw [List.drop_drop] at h3
    have : pos + (j - pos) = j := by omega
    rwa [this] at h3
  · intro k hk1 hk2 hocc
    have := h4 (k - pos) (by omega)
    rw [List.drop_drop] at this
    have e : pos + (k - pos) = k := by omega
    rw [e] at this
    rw [hocc.1] at this
    cases this

theorem indexOf_none {s pat : QString} {pos : Nat} (h : indexOf s pat pos = none) :
    ∀ k, pos ≤ k → ¬ occursAt pat s k := by
  intro k hk hocc
  unfold indexOf at h
  have := findFrom_none h (k - pos) (by rw [List.length_drop]; have := hocc.2; omega)
  rw [List.drop_drop] at this
  have e : pos + (k - pos) = k := by omega
  rw [e, hocc.1] at this
  cases this

/-! ## Theorems: the validity scan -/

theorem scanBack_spec (s : QString) (n : Nat) :
    -1 ≤ scanBack s n ∧ scanBack s n ≤ n ∧
    (∀ j : Nat, scanBack s n < j → j ≤ n → isBlank (charAt s j) = true) ∧
    (0 ≤ scanBack s n → isBlank (charAt s (scanBack s n).toNat) = false) := by
  induction n with
  | zero =>
    unfold scanBack
    by_cases h : isBlank (charAt s 0) = true
    · rw [if_pos h]
      refine ⟨by omega, by omega, ?_, by omega⟩
      intro j h1 h2
      have : j = 0 := by omega
      subst this; exact h
    · rw [if_neg h]
      refine ⟨by omega, by omega, ?_, ?_⟩
      · intro j h1 h2; omega
      · intro _; simpa using h
  | succ n ih =>
    unfold scanBack
    by_cases h : isBlank (charAt s (n + 1)) = true
    · rw [if_pos h]
      obtain ⟨h1, h2, h3, h4⟩ := ih
      refine ⟨h1, by push_cast; omega, ?_, h4⟩
      intro j hj1 hj2
      by_cases e : j = n + 1
      · subst e; exact h
      · exact h3 j hj1 (by omega)
    · rw [if_neg h]
      refine ⟨by omega, le_refl _, ?_, ?_⟩
      · intro j h1 h2; omega
      · intro _; simpa using h

/-- The validity scan never skips an occurrence that starts its line. -/
theorem lineStart_not_skipped {s : QString} {offs : Nat} (h : lineStart s offs) :
    ¬ (scanBack s (offs - 1) > 0 ∧ charAt s (scanBack s (offs - 1)).toNat ≠ '\n') := by
  rintro ⟨hpos, hne⟩
  obtain ⟨k, hk, hk0, hblank⟩ := h
  obtain ⟨h1, h2, h3, h4⟩ := scanBack_spec s (offs - 1)
  generalize hr : scanBack s (offs - 1) = r at *
  obtain ⟨w, rfl⟩ : ∃ w : Nat, r = (w : Int) := ⟨r.toNat, by omega⟩
  simp only [Int.toNat_ofNat] at hne h4
  have hw : 0 < w := by omega
  have hwn : w ≤ offs - 1 := by omega
  have hnb := h4 (by omega)
  have hwk : w < k := by
    by_contra hc
    have := hblank w (by omega) (by omega)
    rw [hnb] at this; cases this
  rcases hk0 with hk0 | hk0
  · omega
  · by_cases e : w = k - 1
    · subst e; exact hne hk0
    · have := h3 (k - 1) (by omega) (by omega)
      rw [hk0, isBlank_newline] at this
      cases this

/-- The occurrences the validity scan accepts: those that start their line, and
those preceded only by spaces and tabs after a first character of the buffer
that is not itself a space or a tab. -/
theorem accepted_cases (s : QString) (offs : Nat) (h : ¬ skipsAt s offs) :
    lineStart s offs ∨
      (0 < offs ∧ isBlank (charAt s 0) = false ∧
        ∀ j, 0 < j → j < offs → isBlank (charAt s j) = true) := by
  unfold skipsAt at h
  obtain ⟨h1, h2, h3, h4⟩ := scanBack_spec s (offs - 1)
  generalize scanBack s (offs - 1) = ws at *
  by_cases h0 : offs = 0
  · exact Or.inl ⟨0, by omega, Or.inl rfl, fun j _ hj => absurd hj (by omega)⟩
  rcases Int.lt_trichotomy ws 0 with hneg | hzero | hpos
  · exact Or.inl ⟨0, by omega, Or.inl rfl, fun j _ hj => h3 j (by omega) (by omega)⟩
  · subst hzero
    exact Or.inr ⟨by omega, by simpa using h4 (le_refl _),
      fun j hj1 hj2 => h3 j (by omega) (by omega)⟩
  · have hnl : charAt s ws.toNat = '\n' := by
      by_contra hc
      exact h ⟨hpos, hc⟩
    refine Or.inl ⟨ws.toNat + 1, by omega, Or.inr (by simpa using hnl), ?_⟩
    intro j hj1 hj2
    exact h3 j (by omega) (by omega)

theorem resolveLoop_none (files : QStringMap) (fuel : Nat) (s : QString) :
    resolveLoop files fuel s none = some (LoopResult.resolved s) := by
  cases fuel <;> rfl

theorem expandDirective_ne_skip (files : QStringMap) (s : QString) (offs : Nat) (ws : Int)
    (next : Option Nat) : expandDirective files s offs ws ≠ Round.skip next := by
  unfold expandDirective
  simp only
  by_cases h : charAt s (skipBlanks s (offs + includeLit.length)) ≠ '<' ∧
      charAt s (skipBlanks s (offs + includeLit.length)) ≠ '"'
  · rw [if_pos h]; simp
  · rw [if_neg h]
    split <;> simp

theorem loopBody_skip {files : QStringMap} {s : QString} {offs : Nat} {next : Option Nat}
    (h : loopBody files s offs = Round.skip next) :
    (scanBack s (offs - 1) > 0 ∧ charAt s (scanBack s (offs - 1)).toNat ≠ '\n') ∧
      next = indexOf s includeLit (offs + 1) := by
  unfold loopBody at h
  simp only at h
  by_cases h1 : scanBack s (offs - 1) > 0 ∧ charAt s (scanBack s (offs - 1)).toNat ≠ '\n'
  · rw [if_pos h1] at h
    injection h with h
    exact ⟨h1, h.symm⟩
  · rw [if_neg h1] at h
    exact absurd h (expandDirective_ne_skip _ _ _ _ _)

theorem loopBody_of_valid {files : QStringMap} {s : QString} {offs : Nat}
    (h : ¬ (scanBack s (offs - 1) > 0 ∧ charAt s (scanBack s (offs - 1)).toNat ≠ '\n')) :
    loopBody files s offs = expandDirective files s offs (scanBack s (offs - 1)) := by
  unfold loopBody
  simp only
  rw [if_neg h]

/-- The loop invariant behind C7: no occurrence before `offs` starts its line. -/
theorem resolveLoop_resolved_inv (files : QStringMap) (fuel : Nat) :
    ∀ (s : QString) (o : Option Nat) (src : QString),
      (∀ j, occursAt includeLit s j → (∀ offs, o = some offs → j < offs) → ¬ lineStart s j) →
      resolveLoop files fuel s o = some (LoopResult.resolved src) →
      ∀ j, occursAt includeLit src j → ¬ lineStart src j := by
  induction fuel with
  | zero =>
    intro s o src inv h
    cases o with
    | none =>
      rw [resolveLoop_none] at h
      injection h with h; injection h with h; subst h
      intro j hj; exact inv j hj (by simp)
    | some offs => simp [resolveLoop] at h
  | succ fuel ih =>
    intro s o src inv h
    cases o with
    | none =>
      rw [resolveLoop_none] at h
      injection h with h; injection h with h; subst h
      intro j hj; exact inv j hj (by simp)
    | some offs =>
      unfold resolveLoop at h
      cases hb : loopBody files s offs with
      | skip next =>
        rw [hb] at h
        obtain ⟨hskip, hnext⟩ := loopBody_skip hb
        refine ih s next src ?_ h
        intro j hj hlt
        by_cases hjo : j < offs
        · exact inv j hj (by intro o' ho'; injection ho' with ho'; omega)
        · by_cases e : j = offs
          · subst e; exact fun hl => lineStart_not_skipped hl hskip
          · exfalso
            cases hn : next with
            | none =>
              rw [hn] at hnext
              exact indexOf_none hnext.symm j (by omega) hj
            | some n =>
              rw [hn] at hnext
              have := indexOf_some hnext.symm
              exact this.2.2 j (by omega) (hlt n hn) hj
      | showErrors text => rw [hb] at h; cases h
      | expand src' =>
        rw [hb] at h
        refine ih src' _ src ?_ h
        intro j hj hlt
        exfalso
        cases hn : indexOf src' includeLit 0 with
        | none => exact indexOf_none hn j (by omega) hj
        | some n => exact (indexOf_some hn).2.2 j (by omega) (hlt n hn) hj

/-- C7: whenever the resolver loop, started on any buffer with any file map and
any bound on the rounds, finishes without reporting an error, the resolved
source (the text before `@cmdline` is prepended) has no occurrence of
`#include` that is preceded only by spaces and tabs back to the start of its
line; directives brought in by substituted text are in the buffer the loop
rescans, so they are covered. -/
theorem resolved_has_no_line_start_include (files : QStringMap) (fuel : Nat)
    (s src : QString)
    (h : resolveLoop files fuel s (indexOf s includeLit 0) = some (LoopResult.resolved src)) :
    ∀ offs, occursAt includeLit src offs → ¬ lineStart src offs := by
  refine resolveLoop_resolved_inv files fuel s _ src ?_ h
  intro j hj hlt
  exfalso
  cases hn : indexOf s includeLit 0 with
  | none => exact indexOf_none hn j (by omega) hj
  | some n => exact (indexOf_some hn).2.2 j (by omega) (hlt n hn) hj

theorem isPrefixOf_singleton (x c : Char) (cs : QString) :
    [x].isPrefixOf (c :: cs) = (x == c) := by
  simp [List.isPrefixOf]

theorem findFrom_char (x : Char) (cs : QString) (i : Nat) :
    findFrom [x] cs i =
      if x ∈ cs then some (i + (cs.takeWhile (fun c => c != x)).length) else none := by
  induction cs generalizing i with
  | nil => simp [findFrom]
  | cons c cs ih =>
    unfold findFrom
    rw [isPrefixOf_singleton]
    by_cases h : x = c
    · subst h; simp
    · have h' : (x == c) = false := by simpa using h
      have h'' : (c != x) = true := by simpa using fun e => h e.symm
      rw [h', List.takeWhile_cons, h'', ih]
      simp only [Bool.false_eq_true, if_false, List.mem_cons, h, false_or, if_true,
        List.length_cons]
      split_ifs <;> simp; omega

theorem findFrom_append_skip (x : Char) (a b : QString) (i : Nat) (h : ∀ c ∈ a, c ≠ x) :
    findFrom [x] (a ++ b) i = findFrom [x] b (i + a.length) := by
  induction a generalizing i with
  | nil => simp
  | cons c cs ih =>
    have hc : (x == c) = false := by
      have := h c (List.mem_cons_self _ _)
      simpa using fun e => this e.symm
    rw [List.cons_append, findFrom, isPrefixOf_singleton, hc]
    simp only [Bool.false_eq_true, if_false]
    rw [ih (i + 1) (fun c hc => h c (List.mem_cons_of_mem _ hc))]
    simp only [List.length_cons]
    congr 1; omega

theorem take_length_takeWhile (p : Char → Bool) (l : QString) :
    l.take (l.takeWhile p).length = l.takeWhile p := by
  induction l with
  | nil => simp
  | cons c cs ih =>
    by_cases h : p c = true
    · simp [List.takeWhile_cons, h, ih]
    · simp [List.takeWhile_cons, h]

theorem drop_length_takeWhile (p : Char → Bool) (l : QString) :
    l.drop (l.takeWhile p).length = l.dropWhile p := by
  induction l with
  | nil => simp
  | cons c cs ih =>
    by_cases h : p c = true
    · simp [List.takeWhile_cons, List.dropWhile_cons, h, ih]
    · simp [List.takeWhile_cons, List.dropWhile_cons, h]

theorem skipBlanksAux_eq (s : QString) (fuel : Nat) :
    ∀ p, (s.drop p).length < fuel →
      skipBlanksAux s fuel p = p + ((s.drop p).takeWhile isBlank).length := by
  induction fuel with
  | zero => intro p h; omega
  | succ fuel ih =>
    intro p h
    unfold skipBlanksAux
    rw [charAt_eq_headD]
    cases hd : s.drop p with
    | nil => simp [isBlank_nul]
    | cons c cs =>
      have hcs : s.drop (p + 1) = cs := by
        have := congrArg (List.drop 1) hd
        simpa [List.drop_drop, Nat.add_comm] using this
      simp only [List.headD_cons, List.takeWhile_cons]
      by_cases hb : isBlank c = true
      · rw [if_pos hb, ih (p + 1) (by rw [hcs]; rw [hd] at h; simpa using h), hcs]
        simp only [hb, if_true, List.length_cons]
        omega
      · rw [if_neg hb]; simp [hb]

theorem skipBlanks_eq (s : QString) (p : Nat) :
    skipBlanks s p = p + ((s.drop p).takeWhile isBlank).length := by
  unfold skipBlanks
  by_cases h : p ≤ s.length
  · exact skipBlanksAux_eq s _ p (by rw [List.length_drop]; omega)
  · have e : s.length + 1 - p = 0 := by omega
    rw [e, List.drop_eq_nil_of_le (by omega)]
    rfl

theorem includeLit_length : includeLit.length = 8 := rfl

theorem includeLit_no_newline : ∀ c ∈ includeLit, c ≠ '\n' := by decide

theorem drop_directive (pre rest : QString) (n : Nat) :
    (pre ++ (includeLit ++ rest)).drop (pre.length + includeLit.length + n) = rest.drop n := by
  rw [← List.append_assoc]
  have : pre.length + includeLit.length + n = (pre ++ includeLit).length + n := by simp
  rw [this, List.drop_append]

theorem take_succ_eq_lineOf (rest : QString) :
    rest.take ((rest.takeWhile (fun c => c != '\n')).length + 1) = lineOf rest := by
  unfold lineOf
  rw [List.take_add, take_length_takeWhile, drop_length_takeWhile]

theorem lineOf_of_not_mem {rest : QString} (h : '\n' ∉ rest) : lineOf rest = rest := by
  unfold lineOf
  have h1 : rest.takeWhile (fun c => c != '\n') = rest := by
    rw [List.takeWhile_eq_self_iff]
    intro c hc
    simpa using fun e : c = '\n' => h (e ▸ hc)
  have h2 : rest.dropWhile (fun c => c != '\n') = [] := by
    rw [List.dropWhile_eq_nil_iff]
    intro c hc
    simpa using fun e : c = '\n' => h (e ▸ hc)
  rw [h1, h2]; simp

/-- The search for the end of the line, started anywhere between the start of
the line and the end of the word `#include`, finds the first newline of `rest`. -/
theorem indexOf_newline (pre rest : QString) (p : Nat)
    (hp : p ≤ pre.length + 2) (hpre : ∀ c ∈ pre.drop p, c ≠ '\n') :
    indexOf (pre ++ (includeLit ++ rest)) ['\n'] p =
      if '\n' ∈ rest then
        some (pre.length + includeLit.length + (rest.takeWhile (fun c => c != '\n')).length)
      else none := by
  unfold indexOf
  rw [← List.append_assoc, List.drop_append_eq_append_drop, findFrom_append_skip]
  · have e : (pre ++ includeLit).length - p + 0 = (pre ++ includeLit).length - p := by omega
    have hl : p ≤ (pre ++ includeLit).length := by
      simp [includeLit_length]; omega
    have e2 : p - (pre ++ includeLit).length = 0 := by omega
    rw [e2, List.drop_zero, findFrom_char, List.length_drop]
    have e3 : p + ((pre ++ includeLit).length - p) = pre.length + includeLit.length := by
      simp [includeLit_length] at hl ⊢; omega
    rw [e3]
  · intro c hc
    rw [List.drop_append_eq_append_drop] at hc
    rcases List.mem_append.mp hc with hc | hc
    · exact hpre c hc
    · exact includeLit_no_newline c (List.mem_of_mem_drop hc)

theorem expandDirective_eq (files : QStringMap) (pre rest : QString) (ws : Int)
    (hws1 : (ws + 1).toNat + 1 ≤ pre.length + 2)
    (hws2 : ∀ c ∈ pre.drop ((ws + 1).toNat + 1), c ≠ '\n') :
    expandDirective files (pre ++ (includeLit ++ rest)) pre.length ws =
      directiveRound files pre rest := by
  have hfound := indexOf_newline pre rest _ hws1 hws2
  have hskip : skipBlanks (pre ++ (includeLit ++ rest)) (pre.length + includeLit.length) =
      pre.length + includeLit.length + (rest.takeWhile isBlank).length := by
    rw [skipBlanks_eq]
    have := drop_directive pre rest 0
    simp only [Nat.add_zero, List.drop_zero] at this
    rw [this]
  have hchar : charAt (pre ++ (includeLit ++ rest))
      (pre.length + includeLit.length + (rest.takeWhile isBlank).length) =
      (rest.dropWhile isBlank).headD (Char.ofNat 0) := by
    rw [charAt_eq_headD, drop_directive, drop_length_takeWhile]
  have hleft : left (pre ++ (includeLit ++ rest)) pre.length = pre := by
    simp [left]
  have hline : mid (pre ++ (includeLit ++ rest)) pre.length
      ((indexOf (pre ++ (includeLit ++ rest)) ['\n'] ((ws + 1).toNat + 1)).getD
        (pre ++ (includeLit ++ rest)).length - pre.length + 1) = includeLit ++ lineOf rest := by
    rw [hfound]
    unfold mid
    rw [List.drop_left]
    by_cases hn : '\n' ∈ rest
    · rw [if_pos hn, Option.getD_some]
      have : pre.length + includeLit.length +
          (rest.takeWhile (fun c => c != '\n')).length - pre.length + 1
          = includeLit.length + ((rest.takeWhile (fun c => c != '\n')).length + 1) := by omega
      rw [this, List.take_append, take_succ_eq_lineOf rest]
    · rw [if_neg hn, Option.getD_none, lineOf_of_not_mem hn]
      apply List.take_of_length_le
      simp
  have htail : (if (indexOf (pre ++ (includeLit ++ rest)) ['\n']
        ((ws + 1).toNat + 1)).isSome = true then
        midFrom (pre ++ (includeLit ++ rest))
          ((indexOf (pre ++ (includeLit ++ rest)) ['\n'] ((ws + 1).toNat + 1)).getD
            (pre ++ (includeLit ++ rest)).length + 1)
      else []) = (rest.dropWhile (fun c => c != '\n')).drop 1 := by
    rw [hfound]
    by_cases hn : '\n' ∈ rest
    · rw [if_pos hn]
      simp only [Option.isSome_some, if_true, Option.getD_some]
      unfold midFrom
      rw [Nat.add_assoc, drop_directive, ← List.drop_drop, drop_length_takeWhile]
    · rw [if_neg hn]
      have h2 : rest.dropWhile (fun c => c != '\n') = [] := by
        rw [List.dropWhile_eq_nil_iff]
        intro c hc
        simpa using fun e : c = '\n' => hn (e ▸ hc)
      simp [h2]
  unfold expandDirective directiveRound
  simp only
  rw [hline, htail, hskip, hchar, hleft]
  cases hd : rest.dropWhile isBlank with
  | nil =>
    have : ((Char.ofNat 0) ≠ '<' ∧ (Char.ofNat 0) ≠ '"') := by decide
    simp only [List.headD_nil]
    rw [if_pos this]
  | cons d after =>
    simp only [List.headD_cons]
    by_cases hdel : d ≠ '<' ∧ d ≠ '"'
    · rw [if_pos hdel, if_pos hdel]
    · rw [if_neg hdel, if_neg hdel]
      have hafter : (pre ++ (includeLit ++ rest)).drop
          (pre.length + includeLit.length + (rest.takeWhile isBlank).length + 1) = after := by
        rw [Nat.add_assoc, drop_directive, ← List.drop_drop, drop_length_takeWhile, hd]
        rfl
      have hidx : indexOf (pre ++ (includeLit ++ rest)) [closing d]
          (pre.length + includeLit.length + (rest.takeWhile isBlank).length + 1) =
          if closing d ∈ after then
            some (pre.length + includeLit.length + (rest.takeWhile isBlank).length + 1 +
              (after.takeWhile (fun c => c != closing d)).length)
          else none := by
        unfold indexOf
        rw [hafter, findFrom_char]
      change (match indexOf (pre ++ (includeLit ++ rest)) [closing d]
          (pre.length + includeLit.length + (rest.takeWhile isBlank).length + 1) with
        | none => _
        | some endPos => _) = _
      rw [hidx]
      by_cases hc : closing d ∈ after
      · rw [if_pos hc, if_pos hc]
        simp only
        have hname : mid (pre ++ (includeLit ++ rest))
            (pre.length + includeLit.length + (rest.takeWhile isBlank).length + 1)
            (pre.length + includeLit.length + (rest.takeWhile isBlank).length + 1 +
              (after.takeWhile (fun c => c != closing d)).length -
              (pre.length + includeLit.length + (rest.takeWhile isBlank).length) - 1)
            = after.takeWhile (fun c => c != closing d) := by
          unfold mid
          rw [hafter]
          have : pre.length + includeLit.length + (rest.takeWhile isBlank).length + 1 +
              (after.takeWhile (fun c => c != closing d)).length -
              (pre.length + includeLit.length + (rest.takeWhile isBlank).length) - 1
              = (after.takeWhile (fun c => c != closing d)).length := by omega
          rw [this, take_length_takeWhile]
        rw [hname]
      · rw [if_neg hc, if_neg hc]

theorem take_succ_reverse (s : QString) (n : Nat) (h : n < s.length) :
    (s.take (n + 1)).reverse = charAt s n :: (s.take n).reverse := by
  rw [List.take_succ, List.reverse_append]
  have : s[n]? = some (charAt s n) := by
    unfold charAt
    rw [List.getD_eq_getElem?_getD, List.getElem?_eq_getElem h]
    rfl
  rw [this]
  rfl

theorem scanBack_reverse (s : QString) (n : Nat) (h : n < s.length) :
    (s.take (n + 1)).reverse.dropWhile isBlank =
      (s.take (scanBack s n + 1).toNat).reverse := by
  induction n with
  | zero =>
    rw [take_succ_reverse s 0 h]
    unfold scanBack
    by_cases hb : isBlank (charAt s 0) = true
    · rw [if_pos hb]; simp [List.dropWhile_cons, hb]
    · rw [if_neg hb]
      simp only [List.take_zero, List.reverse_nil, List.dropWhile_cons, hb]
      have : ((0 : Int) + 1).toNat = 0 + 1 := rfl
      rw [this, take_succ_reverse s 0 h]
      simp
  | succ n ih =>
    rw [take_succ_reverse s (n + 1) h]
    unfold scanBack
    by_cases hb : isBlank (charAt s (n + 1)) = true
    · rw [if_pos hb, List.dropWhile_cons, if_pos hb]
      exact ih (by omega)
    · rw [if_neg hb, List.dropWhile_cons, if_neg hb]
      have : (((n + 1 : Nat) : Int) + 1).toNat = (n + 1) + 1 := by omega
      rw [this, take_succ_reverse s (n + 1) h]

theorem skipCond_iff (pre rest : QString) :
    (scanBack (pre ++ (includeLit ++ rest)) (pre.length - 1) > 0 ∧
      charAt (pre ++ (includeLit ++ rest))
        (scanBack (pre ++ (includeLit ++ rest)) (pre.length - 1)).toNat ≠ '\n') ↔
    skipped pre = true := by
  cases hpre : pre with
  | nil =>
    have : scanBack (includeLit ++ rest) 0 = 0 := by
      simp [scanBack, includeLit, charAt, isBlank]
    simp [this, skipped]
  | cons p0 ps =>
    rw [← hpre]
    have hlen : pre.length - 1 < (pre ++ (includeLit ++ rest)).length := by
      simp [hpre]; omega
    have hrev := scanBack_reverse (pre ++ (includeLit ++ rest)) (pre.length - 1) hlen
    have hsucc : pre.length - 1 + 1 = pre.length := by simp [hpre]
    rw [hsucc, List.take_left] at hrev
    obtain ⟨h1, h2, -, -⟩ := scanBack_spec (pre ++ (includeLit ++ rest)) (pre.length - 1)
    generalize scanBack (pre ++ (includeLit ++ rest)) (pre.length - 1) = ws at *
    unfold skipped
    rw [hrev]
    rcases Int.lt_trichotomy ws 0 with hneg | hzero | hpos
    · have : (ws + 1).toNat = 0 := by omega
      rw [this]
      simp; omega
    · subst hzero
      have : ((0 : Int) + 1).toNat = 0 + 1 := rfl
      rw [this, take_succ_reverse _ 0 (by simp [hpre])]
      simp
    · obtain ⟨w, rfl⟩ : ∃ w : Nat, ws = ((w + 1 : Nat) : Int) := ⟨ws.toNat - 1, by omega⟩
      have e : (((w + 1 : Nat) : Int) + 1).toNat = (w + 1) + 1 := by omega
      have hw : w + 1 < (pre ++ (includeLit ++ rest)).length := by omega
      rw [e, take_succ_reverse _ (w + 1) hw, take_succ_reverse _ w (by omega)]
      simp only [Int.toNat_ofNat]
      constructor
      · rintro ⟨-, hne⟩
        simpa using hne
      · intro hne
        exact ⟨by omega, by simpa using hne⟩

theorem mem_drop_blank_of_scanBack (pre rest : QString) :
    ∀ c ∈ pre.drop ((scanBack (pre ++ (includeLit ++ rest)) (pre.length - 1) + 1).toNat + 1),
      c ≠ '\n' := by
  intro c hc
  obtain ⟨h1, h2, h3, -⟩ := scanBack_spec (pre ++ (includeLit ++ rest)) (pre.length - 1)
  generalize scanBack (pre ++ (includeLit ++ rest)) (pre.length - 1) = ws at *
  obtain ⟨i, hi, rfl⟩ := List.getElem_of_mem hc
  rw [List.length_drop] at hi
  rw [List.getElem_drop]
  have hj : (ws + 1).toNat + 1 + i < pre.length := by omega
  have := h3 ((ws + 1).toNat + 1 + i) (by omega) (by omega)
  rw [charAt_append_left _ _ _ hj] at this
  unfold charAt at this
  rw [List.getD_eq_getElem?_getD, List.getElem?_eq_getElem hj] at this
  simp only [Option.getD_some] at this
  intro e
  rw [e, isBlank_newline] at this
  cases this

/-- One round of the loop at an occurrence, in terms of the text before it and
the text after the word `#include`. -/
theorem loopBody_eq (files : QStringMap) (pre rest : QString) :
    loopBody files (pre ++ (includeLit ++ rest)) pre.length =
      if skipped pre = true then
        Round.skip (indexOf (pre ++ (includeLit ++ rest)) includeLit (pre.length + 1))
      else directiveRound files pre rest := by
  by_cases h : skipped pre = true
  · rw [if_pos h]
    unfold loopBody
    simp only
    rw [if_pos ((skipCond_iff pre rest).mpr h)]
  · rw [if_neg h, loopBody_of_valid (fun hc => h ((skipCond_iff pre rest).mp hc))]
    apply expandDirective_eq
    · obtain ⟨h1, h2, -, -⟩ := scanBack_spec (pre ++ (includeLit ++ rest)) (pre.length - 1)
      omega
    · exact mem_drop_blank_of_scanBack pre rest

theorem occursAt_split {s : QString} {offs : Nat} (h : occursAt includeLit s offs) :
    s = s.take offs ++ (includeLit ++ s.drop (offs + includeLit.length)) ∧
      (s.take offs).length = offs := by
  obtain ⟨h1, h2⟩ := h
  rw [List.isPrefixOf_iff_prefix] at h1
  obtain ⟨t, ht⟩ := h1
  have hd : s.drop (offs + includeLit.length) = t := by
    rw [← List.drop_drop, ← ht]
    simp
  refine ⟨?_, by simp; omega⟩
  rw [hd, ht, List.take_append_drop]

/-! ## Theorems: the resolver loop -/

theorem lineFrom_eq (pre rest : QString) :
    lineFrom (pre ++ (includeLit ++ rest)) pre.length = includeLit ++ lineOf rest := by
  unfold lineFrom lineOf
  rw [List.drop_left]
  simp [includeLit, List.takeWhile_cons, List.dropWhile_cons]

theorem loopBody_malformed (files : QStringMap) {s : QString} {offs : Nat}
    (hocc : occursAt includeLit s offs) (hstart : lineStart s offs) (hbad : malformed s offs) :
    loopBody files s offs = Round.showErrors (invalidDirective (lineFrom s offs)) := by
  obtain ⟨hs, hl⟩ := occursAt_split hocc
  generalize s.take offs = pre at hs hl
  generalize hrest : s.drop (offs + includeLit.length) = rest at hs
  subst hl
  have hvalid := lineStart_not_skipped hstart
  unfold malformed afterInclude at hbad
  rw [hrest] at hbad
  subst hs
  rw [loopBody_of_valid hvalid, lineFrom_eq]
  rw [expandDirective_eq]
  · unfold directiveRound
    cases hd : rest.dropWhile isBlank with
    | nil => rfl
    | cons d after =>
      rw [hd] at hbad
      simp only at hbad ⊢
      by_cases hdel : d ≠ '<' ∧ d ≠ '"'
      · rw [if_pos hdel]
      · rw [if_neg hdel]
        rcases hbad with hbad | hbad
        · exact absurd hbad hdel
        · rw [if_neg hbad]
  · obtain ⟨h1, h2, -, -⟩ := scanBack_spec (pre ++ (includeLit ++ rest)) (pre.length - 1)
    omega
  · exact mem_drop_blank_of_scanBack pre rest

theorem loopState_occurs (files : QStringMap) (rounds : Nat) :
    ∀ (s0 : QString) (o0 : Option Nat) (s : QString) (offs : Nat),
      (∀ i, o0 = some i → occursAt includeLit s0 i) →
      loopState files rounds s0 o0 = some (s, some offs) → occursAt includeLit s offs := by
  induction rounds with
  | zero =>
    intro s0 o0 s offs h0 h
    simp only [loopState, Option.some.injEq, Prod.mk.injEq] at h
    obtain ⟨rfl, rfl⟩ := h
    exact h0 offs rfl
  | succ n ih =>
    intro s0 o0 s offs h0 h
    cases o0 with
    | none => simp [loopState] at h
    | some i =>
      unfold loopState at h
      cases hb : loopBody files s0 i with
      | skip next =>
        rw [hb] at h
        refine ih s0 next s offs ?_ h
        intro j hj
        have := (loopBody_skip hb).2
        rw [hj] at this
        exact (indexOf_some this.symm).2.1
      | showErrors text => rw [hb] at h; cases h
      | expand src =>
        rw [hb] at h
        refine ih src _ s offs ?_ h
        intro j hj
        exact (indexOf_some hj).2.1

theorem resolveLoop_succ (files : QStringMap) (fuel : Nat) (s : QString) (offs : Nat) :
    resolveLoop files (fuel + 1) s (some offs) =
      match loopBody files s offs with
      | Round.skip next => resolveLoop files fuel s next
      | Round.showErrors text => some (LoopResult.showErrors text)
      | Round.expand src => resolveLoop files fuel src (indexOf src includeLit 0) := rfl

theorem resolveLoop_loopState (files : QStringMap) (rounds : Nat) :
    ∀ (n : Nat) (s0 : QString) (o0 : Option Nat) (s : QString) (o : Option Nat),
      loopState files rounds s0 o0 = some (s, o) →
      resolveLoop files (rounds + n) s0 o0 = resolveLoop files n s o := by
  induction rounds with
  | zero =>
    intro n s0 o0 s o h
    simp only [loopState, Option.some.injEq, Prod.mk.injEq] at h
    obtain ⟨rfl, rfl⟩ := h
    simp
  | succ r ih =>
    intro n s0 o0 s o h
    cases o0 with
    | none => simp [loopState] at h
    | some i =>
      have e : r + 1 + n = (r + n) + 1 := by omega
      rw [e]
      unfold loopState at h
      rw [resolveLoop_succ]
      cases hb : loopBody files s0 i with
      | skip next => rw [hb] at h; simp only; exact ih n s0 next s o h
      | showErrors text => rw [hb] at h; cases h
      | expand src => rw [hb] at h; simp only; exact ih n src _ s o h

/-- C6: when the resolver loop of the save callback reaches, after any number of
rounds, an occurrence of `#include` that starts its line and is malformed (the
first character after the following spaces and tabs is neither `<` nor `"`,
the end of the buffer included, or the matching closing delimiter occurs
nowhere later in the buffer), the callback ends with `ShowErrors` of
`Invalid #include directive found:\r\n` followed by the text from the directive
through the end of its line, and requests no build. -/
theorem malformed_directive_aborts (files : QStringMap) (mainfile : QString)
    (rounds fuel : Nat) (s : QString) (offs : Nat)
    (hreach : loopState files rounds (value files mainfile)
      (indexOf (value files mainfile) includeLit 0) = some (s, some offs))
    (hstart : lineStart s offs) (hbad : malformed s offs) (hfuel : rounds < fuel) :
    saveCallback fuel files mainfile =
      some (Outcome.showErrors
        ("Invalid #include directive found:\r\n".toList ++ lineFrom s offs)) := by
  have hocc : occursAt includeLit s offs :=
    loopState_occurs files rounds _ _ s offs (fun i hi => (indexOf_some hi).2.1) hreach
  obtain ⟨n, rfl⟩ : ∃ n, fuel = rounds + (n + 1) := ⟨fuel - rounds - 1, by omega⟩
  unfold saveCallback
  simp only
  rw [resolveLoop_loopState files rounds (n + 1) _ _ s (some offs) hreach]
  rw [resolveLoop_succ, loopBody_malformed files hocc hstart hbad]
  rfl

/-! ## Theorems: counting occurrences -/

/-- The lookup in terms of the key it ends at: without such a key the
`Can't find file` comment, with an exact key its text, and with a key found by
file name its text unless that text is empty. -/
theorem lookupInclude_eq_resolved (files : QStringMap) (fname : QString) :
    lookupInclude files fname =
      match resolvedKey files fname with
      | none => cantFind fname
      | some k =>
        if contains files fname then value files k
        else if (value files k).isEmpty then cantFind fname else value files k := by
  unfold lookupInclude resolvedKey
  by_cases h1 : contains files fname = true
  · simp only [h1, if_true]
  · simp only [h1, Bool.false_eq_true, if_false]
    cases (keys files).find? (fun k => equalsIgnoreCase (fileName k) (fileName fname)) with
    | none => simp
    | some k => rfl

theorem occursAt_of_split (pre rest : QString) :
    occursAt includeLit (pre ++ (includeLit ++ rest)) pre.length := by
  refine ⟨?_, by simp [includeLit_length]⟩
  rw [List.drop_left, List.isPrefixOf_iff_prefix]
  exact List.prefix_append _ _

theorem replicate_append_cons (a : Nat) (c : Char) (t : QString) :
    List.replicate a c ++ c :: t = c :: (List.replicate a c ++ t) := by
  induction a with
  | zero => rfl
  | succ a ih => rw [List.replicate_succ, List.cons_append, ih, List.cons_append]

theorem skipped_replicate_newline (a : Nat) : skipped (List.replicate a '\n') = false := by
  unfold skipped
  rw [List.reverse_replicate]
  have : (List.replicate a '\n').dropWhile isBlank = List.replicate a '\n' := by
    cases a with
    | zero => rfl
    | succ a => simp [List.replicate_succ, List.dropWhile_cons, isBlank_newline]
  rw [this]
  match a with
  | 0 => rfl
  | 1 => rfl
  | a + 2 => simp [List.replicate_succ]

theorem findFrom_replicate_newline (a : Nat) (t : QString) (i : Nat) :
    findFrom includeLit (List.replicate a '\n' ++ (includeLit ++ t)) i = some (i + a) := by
  induction a generalizing i with
  | zero =>
    simp only [List.replicate_zero, List.nil_append, Nat.add_zero]
    show findFrom includeLit ('#' :: (includeLit.tail ++ t)) i = some i
    unfold findFrom
    have : includeLit.isPrefixOf ('#' :: (includeLit.tail ++ t)) = true := by
      rw [List.isPrefixOf_iff_prefix]
      exact List.prefix_append includeLit t
    rw [if_pos this]
  | succ a ih =>
    rw [List.replicate_succ, List.cons_append]
    unfold findFrom
    have : includeLit.isPrefixOf ('\n' :: (List.replicate a '\n' ++ (includeLit ++ t))) = false := by
      simp [includeLit, List.isPrefixOf]
    rw [this]
    simp only [Bool.false_eq_true, if_false]
    rw [ih]
    congr 1; omega

theorem indexOf_selfBuffer (a b : Nat) :
    indexOf (selfBuffer a b) includeLit 0 = some a := by
  unfold indexOf selfBuffer
  rw [List.drop_zero, findFrom_replicate_newline, Nat.zero_add]

theorem loopBody_selfBuffer (a b : Nat) :
    loopBody selfFiles (selfBuffer a b) a = Round.expand (selfBuffer (a + 2) (b - 1 + 2)) := by
  have h := loopBody_eq selfFiles (List.replicate a '\n')
    ([' ', '"', 'm', '"'] ++ List.replicate b '\n')
  rw [List.length_replicate, skipped_replicate_newline] at h
  simp only [Bool.false_eq_true, if_false] at h
  unfold selfBuffer
  rw [h]
  unfold directiveRound
  have hd : ([' ', '"', 'm', '"'] ++ List.replicate b '\n').dropWhile isBlank =
      '"' :: (['m', '"'] ++ List.replicate b '\n') := by
    simp [List.dropWhile_cons, isBlank]
  rw [hd]
  simp only
  have hdel : ¬ (('"' : Char) ≠ '<' ∧ ('"' : Char) ≠ '"') := by decide
  rw [if_neg hdel]
  have hc : closing '"' = '"' := by decide
  rw [hc]
  have hmem : '"' ∈ (['m', '"'] ++ List.replicate b '\n') := by simp
  rw [if_pos hmem]
  have hname : (['m', '"'] ++ List.replicate b '\n').takeWhile (fun c => c != '"') = ['m'] := by
    simp [List.takeWhile_cons]
  rw [hname]
  have hlook : lookupInclude selfFiles ['m'] = selfInclude := by decide
  rw [hlook]
  have htail : (([' ', '"', 'm', '"'] ++ List.replicate b '\n').dropWhile
      (fun c => c != '\n')).drop 1 = List.replicate (b - 1) '\n' := by
    cases b with
    | zero => simp [List.dropWhile_cons]
    | succ b => simp [List.dropWhile_cons, List.replicate_succ]
  rw [htail]
  unfold selfInclude
  simp [List.replicate_succ, List.replicate_add]
  rw [replicate_append_cons, replicate_append_cons]

theorem loopState_selfBuffer (rounds : Nat) :
    ∀ a b, ∃ b', loopState selfFiles rounds (selfBuffer a b) (some a) =
      some (selfBuffer (a + 2 * rounds) b', some (a + 2 * rounds)) := by
  induction rounds with
  | zero => intro a b; exact ⟨b, rfl⟩
  | succ r ih =>
    intro a b
    obtain ⟨b', hb'⟩ := ih (a + 2) (b - 1 + 2)
    refine ⟨b', ?_⟩
    show (match loopBody selfFiles (selfBuffer a b) a with
      | Round.skip next => loopState selfFiles r (selfBuffer a b) next
      | Round.showErrors _ => none
      | Round.expand src => loopState selfFiles r src (indexOf src includeLit 0)) = _
    rw [loopBody_selfBuffer]
    simp only
    rw [indexOf_selfBuffer, hb']
    have : a + 2 + 2 * r = a + 2 * (r + 1) := by omega
    rw [this]

theorem resolveLoop_selfBuffer (fuel : Nat) :
    ∀ a b, resolveLoop selfFiles fuel (selfBuffer a b) (some a) = none := by
  induction fuel with
  | zero => intro a b; rfl
  | succ f ih =>
    intro a b
    rw [resolveLoop_succ, loopBody_selfBuffer]
    simp only
    rw [indexOf_selfBuffer]
    exact ih _ _

theorem expansions_selfBuffer (n : Nat) :
    ∀ a b, (expansions selfFiles n (selfBuffer a b) (some a)).length = n := by
  induction n with
  | zero => intro a b; rfl
  | succ n ih =>
    intro a b
    show (match loopBody selfFiles (selfBuffer a b) a with
      | Round.skip next => expansions selfFiles n (selfBuffer a b) next
      | Round.showErrors _ => []
      | Round.expand src => src :: expansions selfFiles n src (indexOf src includeLit 0)).length
        = n + 1
    rw [loopBody_selfBuffer]
    simp only [List.length_cons]
    rw [indexOf_selfBuffer, ih]

theorem lineStart_selfBuffer (a b : Nat) : lineStart (selfBuffer a b) a := by
  refine ⟨a, le_refl _, ?_, fun j h1 h2 => absurd h2 (by omega)⟩
  cases a with
  | zero => exact Or.inl rfl
  | succ a =>
    right
    unfold selfBuffer
    rw [charAt_append_left _ _ _ (by simp)]
    unfold charAt
    rw [List.getD_eq_getElem?_getD, List.getElem?_replicate]
    simp

theorem afterInclude_selfBuffer (a b : Nat) :
    afterInclude (selfBuffer a b) a = ['"', 'm', '"'] ++ List.replicate b '\n' := by
  unfold afterInclude selfBuffer
  have := drop_directive (List.replicate a '\n') ([' ', '"', 'm', '"'] ++ List.replicate b '\n') 0
  rw [List.length_replicate, Nat.add_zero, List.drop_zero] at this
  rw [this]
  simp [List.dropWhile_cons, isBlank]

theorem value_selfFiles : value selfFiles ['m'] = selfBuffer 0 0 := by decide

/-- C10: for the main file `m` whose text is `#include "m"`, stored in the map
under the key `m`, the save callback produces nothing for any bound on the
rounds of the resolver loop (neither a build request nor an error report);
every round is a substitution, and after any number of rounds the loop stands
at an occurrence of `#include` that starts its line and is followed by the
well-formed file name `"m"`. -/
theorem cyclic_include_never_finishes :
    value selfFiles ['m'] = "#include \"m\"".toList ∧
    (∀ fuel, saveCallback fuel selfFiles ['m'] = none) ∧
    (∀ n, (expansions selfFiles n (value selfFiles ['m'])
      (indexOf (value selfFiles ['m']) includeLit 0)).length = n) ∧
    (∀ rounds, ∃ s offs b,
      loopState selfFiles rounds (value selfFiles ['m'])
        (indexOf (value selfFiles ['m']) includeLit 0) = some (s, some offs) ∧
      occursAt includeLit s offs ∧ lineStart s offs ∧
      afterInclude s offs = ['"', 'm', '"'] ++ List.replicate b '\n') := by
  refine ⟨by decide, ?_, ?_, ?_⟩
  · intro fuel
    unfold saveCallback
    simp only
    rw [value_selfFiles, indexOf_selfBuffer, resolveLoop_selfBuffer]
  · intro n
    rw [value_selfFiles, indexOf_selfBuffer, expansions_selfBuffer]
  · intro rounds
    rw [value_selfFiles, indexOf_selfBuffer]
    obtain ⟨b', hb'⟩ := loopState_selfBuffer rounds 0 0
    refine ⟨_, _, b', hb', ?_, lineStart_selfBuffer _ _, afterInclude_selfBuffer _ _⟩
    have := occursAt_of_split (List.replicate (0 + 2 * rounds) '\n')
      ([' ', '"', 'm', '"'] ++ List.replicate b' '\n')
    rw [List.length_replicate] at this
    exact this

/-! ## Theorems: the claims about the resolver at concrete inputs -/

/-- C4 (fails on the code): in the buffer `x#include "f"` the occurrence at
position 1 is preceded on its line by `x`, so it does not start its line, yet
the loop body substitutes the text of `f` for it and the save callback requests
a build of `x\n\nTEXT\n\n`: the validity scan stops on the first character of
the buffer and accepts it whatever it is. -/
theorem leading_char_include_expanded :
    occursAt includeLit "x#include \"f\"".toList 1 ∧
    ¬ lineStart "x#include \"f\"".toList 1 ∧
    loopBody leadingCharFiles "x#include \"f\"".toList 1 =
      Round.expand "x\n\nTEXT\n\n".toList ∧
    saveCallback 2 leadingCharFiles "main".toList =
      some (Outcome.build "x\n\nTEXT\n\n".toList) := by
  refine ⟨by decide, by decide, by decide, by decide⟩

/-- C5 (fails on the code): the directive `#include "f.h"` with a map that has no
key `f.h` but has the key `dir/f.h`, whose file name matches and whose text is
empty: the lookup finds that key, and still the `Can't find file` comment is
substituted, not the (empty) text of the matching file. -/
theorem empty_match_reported_missing :
    contains emptyFileFiles "f.h".toList = false ∧
    (keys emptyFileFiles).find?
      (fun k => equalsIgnoreCase (fileName k) (fileName "f.h".toList)) =
      some "dir/f.h".toList ∧
    value emptyFileFiles "dir/f.h".toList = [] ∧
    lookupInclude emptyFileFiles "f.h".toList = "// Can't find file f.h\n".toList ∧
    loopBody emptyFileFiles "#include \"f.h\"".toList 0 =
      Round.expand "\n\n// Can't find file f.h\n\n\n".toList := by
  refine ⟨by decide, by decide, by decide, by decide, by decide⟩

/-- C6 at a concrete input: the main file `#include <a.h>`, then a line
`  #include m`, then `rest`; after one round the loop stands at the second
directive, which starts its line and has no delimiter. -/
theorem malformed_directive_aborts_witness :
    loopState malformedFiles 1 (value malformedFiles "main".toList)
      (indexOf (value malformedFiles "main".toList) includeLit 0) =
      some ("\n\nint x;\n\n  #include m\nrest".toList, some 12) ∧
    lineStart "\n\nint x;\n\n  #include m\nrest".toList 12 ∧
    malformed "\n\nint x;\n\n  #include m\nrest".toList 12 ∧
    saveCallback 2 malformedFiles "main".toList =
      some (Outcome.showErrors
        ("Invalid #include directive found:\r\n".toList ++
          lineFrom "\n\nint x;\n\n  #include m\nrest".toList 12)) ∧
    lineFrom "\n\nint x;\n\n  #include m\nrest".toList 12 = "#include m\n".toList :=
  ⟨by decide, by decide, by decide,
   malformed_directive_aborts malformedFiles "main".toList 1 2
     "\n\nint x;\n\n  #include m\nrest".toList 12
     (by decide) (by decide) (by decide) (by decide),
   by decide⟩

/-- C7 at a concrete input: a directive followed by a commented-out one. -/
theorem resolved_has_no_line_start_include_witness :
    resolveLoop headerFiles 3 "#include \"a.h\"\n// #include <b>\n".toList
        (indexOf "#include \"a.h\"\n// #include <b>\n".toList includeLit 0) =
      some (LoopResult.resolved "\n\nint x;\n\n// #include <b>\n".toList) ∧
    ∀ offs, occursAt includeLit "\n\nint x;\n\n// #include <b>\n".toList offs →
      ¬ lineStart "\n\nint x;\n\n// #include <b>\n".toList offs :=
  ⟨by decide,
   resolved_has_no_line_start_include headerFiles 3
     "#include \"a.h\"\n// #include <b>\n".toList
     "\n\nint x;\n\n// #include <b>\n".toList (by decide)⟩

/-- A directive can be resolved to the main file without naming its key: the
path `inc/shader.hlsl` is no key, the lookup falls back to the file name and
ends at the main file `shader.hlsl`, and three rounds make three substitutions
where the main text has one occurrence. -/
theorem name_match_reincludes_main :
    contains nameMatchFiles "inc/shader.hlsl".toList = false ∧
    resolvedKey nameMatchFiles
      (directiveName (value nameMatchFiles "shader.hlsl".toList) 0) =
      some "shader.hlsl".toList ∧
    countOcc includeLit (value nameMatchFiles "shader.hlsl".toList) = 1 ∧
    (expansions nameMatchFiles 3 (value nameMatchFiles "shader.hlsl".toList)
      (indexOf (value nameMatchFiles "shader.hlsl".toList) includeLit 0)).length = 3 := by
  refine ⟨by decide, by decide, by decide, by decide⟩

/-! ## Theorems: preparing a shader for editing -/

theorem contains_iff_mem_keys (files : QStringMap) (key : QString) :
    contains files key = true ↔ key ∈ keys files := by
  unfold contains keys
  simp only [List.any_eq_true, beq_iff_eq, List.mem_map]

theorem mem_keys_assign (files : QStringMap) (key text x : QString) :
    x ∈ keys (assign files key text) ↔ x = key ∨ x ∈ keys files := by
  induction files with
  | nil => simp [assign, keys]
  | cons kv rest ih =>
    obtain ⟨k, v⟩ := kv
    unfold assign
    by_cases h1 : key = k
    · subst h1
      simp [keys]
    · rw [if_neg h1]
      by_cases h2 : key < k
      · rw [if_pos h2]
        simp [keys]
      · rw [if_neg h2]
        have : keys ((k, v) :: assign rest key text) = k :: keys (assign rest key text) := rfl
        rw [this, List.mem_cons, ih]
        have : keys ((k, v) :: rest) = k :: keys rest := rfl
        rw [this, List.mem_cons]
        tauto

/-- The keys after the loop: the keys there were, and every name of the list
that is not preceded by a name with the same lower-case form and whose
lower-case form was not recorded before the loop. -/
theorem mem_keys_collectFiles (l : List (QString × QString)) :
    ∀ (uniqueFiles : List QString) (files : QStringMap) (x : QString),
      x ∈ keys (collectFiles l uniqueFiles files).2 ↔
        x ∈ keys files ∨
          ∃ pre text post, l = pre ++ (x, text) :: post ∧ toLower x ∉ uniqueFiles ∧
            ∀ p ∈ pre, toLower p.1 ≠ toLower x := by
  induction l with
  | nil =>
    intro U F x
    simp [collectFiles]
  | cons s rest ih =>
    intro U F x
    unfold collectFiles
    simp only
    by_cases hU : U.contains (toLower s.1) = true
    · rw [if_pos hU, ih]
      have hmem : toLower s.1 ∈ U := by simpa using hU
      constructor
      · rintro (h | ⟨pre, t, post, h1, h2, h3⟩)
        · exact Or.inl h
        · refine Or.inr ⟨s :: pre, t, post, by rw [h1]; rfl, h2, ?_⟩
          intro p hp
          rcases List.mem_cons.mp hp with e | e
          · rw [e]; intro heq; exact h2 (heq ▸ hmem)
          · exact h3 p e
      · rintro (h | ⟨pre, t, post, h1, h2, h3⟩)
        · exact Or.inl h
        · cases pre with
          | nil =>
            rw [List.nil_append] at h1
            injection h1 with h4 h5
            rw [h4] at hmem
            exact absurd hmem h2
          | cons p0 pre =>
            rw [List.cons_append] at h1
            injection h1 with h4 h5
            exact Or.inr ⟨pre, t, post, h5, h2,
              fun p hp => h3 p (List.mem_cons_of_mem _ hp)⟩
    · rw [if_neg hU, ih, mem_keys_assign]
      have hnot : toLower s.1 ∉ U := by simpa using hU
      constructor
      · rintro ((h | h) | ⟨pre, t, post, h1, h2, h3⟩)
        · refine Or.inr ⟨[], s.2, rest, by rw [h]; rfl, by rw [h]; exact hnot, by simp⟩
        · exact Or.inl h
        · have h2' : toLower x ∉ U ∧ toLower x ≠ toLower s.1 := by
            simpa [List.mem_append] using h2
          refine Or.inr ⟨s :: pre, t, post, by rw [h1]; rfl, h2'.1, ?_⟩
          intro p hp
          rcases List.mem_cons.mp hp with e | e
          · rw [e]; exact fun heq => h2'.2 heq.symm
          · exact h3 p e
      · rintro (h | ⟨pre, t, post, h1, h2, h3⟩)
        · exact Or.inl (Or.inr h)
        · cases pre with
          | nil =>
            rw [List.nil_append] at h1
            injection h1 with h4 h5
            exact Or.inl (Or.inl (by rw [h4]))
          | cons p0 pre =>
            rw [List.cons_append] at h1
            injection h1 with h4 h5
            refine Or.inr ⟨pre, t, post, h5, ?_, fun p hp => h3 p (List.mem_cons_of_mem _ hp)⟩
            have := h3 p0 (List.mem_cons_self _ _)
            rw [← h4] at this
            simp only [List.mem_append, List.mem_singleton, not_or]
            exact ⟨h2, fun heq => this heq.symm⟩

theorem exists_first_with_lower (l : List (QString × QString)) (low : QString)
    (h : ∃ p ∈ l, toLower p.1 = low) :
    ∃ pre x post, l = pre ++ x :: post ∧ toLower x.1 = low ∧
      ∀ p ∈ pre, toLower p.1 ≠ low := by
  induction l with
  | nil => obtain ⟨p, hp, -⟩ := h; cases hp
  | cons s rest ih =>
    by_cases hs : toLower s.1 = low
    · exact ⟨[], s, rest, rfl, hs, by simp⟩
    · obtain ⟨p, hp, hlow⟩ := h
      rcases List.mem_cons.mp hp with e | e
      · exact absurd (e ▸ hlow) hs
      · obtain ⟨pre, x, post, h1, h2, h3⟩ := ih ⟨p, e, hlow⟩
        refine ⟨s :: pre, x, post, by rw [h1]; rfl, h2, ?_⟩
        intro q hq
        rcases List.mem_cons.mp hq with e' | e'
        · rw [e']; exact hs
        · exact h3 q e'

/-- What `PrepareShaderEditing` returns when it returns `true`. -/
theorem prepare_true {d : ShaderDebugChunk} {entryFunc mainfile : QString}
    {files : QStringMap} (h : (PrepareShaderEditing d entryFunc files mainfile).result = true) :
    d.files ≠ [] ∧
    (PrepareShaderEditing d entryFunc files mainfile).files = (collectFiles d.files [] files).2 ∧
    (PrepareShaderEditing d entryFunc files mainfile).mainfile =
      (d.files.getD (if d.entryFile < 0 ∨ d.entryFile ≥ d.files.length then (0 : Int)
        else d.entryFile).toNat ([], [])).1 := by
  unfold PrepareShaderEditing at h ⊢
  by_cases hc : ¬ d.entryFunc.isEmpty ∧ ¬ d.files.isEmpty
  · rw [if_pos hc]
    refine ⟨?_, rfl, rfl⟩
    intro e
    rw [e] at hc
    exact hc.2 rfl
  · rw [if_neg hc] at h
    cases h

theorem mainfile_mem (d : ShaderDebugChunk) (h : d.files ≠ []) :
    d.files.getD (if d.entryFile < 0 ∨ d.entryFile ≥ d.files.length then (0 : Int)
      else d.entryFile).toNat ([], []) ∈ d.files := by
  have hlen : 0 < d.files.length := List.length_pos.mpr h
  have hidx : (if d.entryFile < 0 ∨ d.entryFile ≥ d.files.length then (0 : Int)
      else d.entryFile).toNat < d.files.length := by
    split_ifs with hc
    · simpa using hlen
    · omega
  rw [List.getD_eq_getElem _ _ hidx]
  exact List.getElem_mem _

/-- Whenever `PrepareShaderEditing` returns `true` from an empty `files` map, some
key of the returned map equals the returned `mainfile` ignoring case. -/
theorem prepare_mainfile_known_ignoring_case (d : ShaderDebugChunk)
    (entryFunc mainfile : QString)
    (h : (PrepareShaderEditing d entryFunc [] mainfile).result = true) :
    ∃ k ∈ keys (PrepareShaderEditing d entryFunc [] mainfile).files,
      toLower k = toLower (PrepareShaderEditing d entryFunc [] mainfile).mainfile := by
  obtain ⟨hne, hfiles, hmain⟩ := prepare_true h
  rw [hfiles, hmain]
  obtain ⟨pre, x, post, h1, h2, h3⟩ := exists_first_with_lower d.files _
    ⟨_, mainfile_mem d hne, rfl⟩
  refine ⟨x.1, ?_, h2⟩
  rw [mem_keys_collectFiles]
  exact Or.inr ⟨pre, x.2, post, h1, by simp, fun p hp => by rw [h2]; exact h3 p hp⟩

/-- Whenever `PrepareShaderEditing` returns `true` from an empty `files` map, the
returned `mainfile` is a key of the returned map exactly when no earlier
debug-info file has a name that equals it ignoring case without being it. -/
theorem prepare_mainfile_key_iff (d : ShaderDebugChunk) (entryFunc mainfile : QString)
    (h : (PrepareShaderEditing d entryFunc [] mainfile).result = true) :
    contains (PrepareShaderEditing d entryFunc [] mainfile).files
        (PrepareShaderEditing d entryFunc [] mainfile).mainfile = true ↔
      ∃ pre text post,
        d.files = pre ++ ((PrepareShaderEditing d entryFunc [] mainfile).mainfile, text) :: post ∧
        ∀ p ∈ pre, toLower p.1 ≠ toLower (PrepareShaderEditing d entryFunc [] mainfile).mainfile := by
  obtain ⟨hne, hfiles, hmain⟩ := prepare_true h
  rw [contains_iff_mem_keys, hfiles, mem_keys_collectFiles]
  constructor
  · rintro (hk | ⟨pre, t, post, h1, -, h3⟩)
    · cases hk
    · exact ⟨pre, t, post, h1, h3⟩
  · rintro ⟨pre, t, post, h1, h3⟩
    exact Or.inr ⟨pre, t, post, h1, by simp, h3⟩

/-- C11 (fails on the code): for a shader whose entry file `a.hlsl` (index 1)
follows a file named `A.hlsl`, `PrepareShaderEditing` called with an empty
`files` map returns `true`, keeps only the key `A.hlsl` (the second name is
dropped as a duplicate ignoring case) and returns `a.hlsl` as `mainfile`, which
is not a key of the returned map; the save callback then reads an empty main
text and requests a build of the empty source. -/
theorem case_variant_mainfile_not_key :
    PrepareShaderEditing caseVariantShader [] [] [] =
      { result := true, entryFunc := "main".toList,
        files := [("A.hlsl".toList, "float4 a;".toList)], mainfile := "a.hlsl".toList } ∧
    contains (PrepareShaderEditing caseVariantShader [] [] []).files
      (PrepareShaderEditing caseVariantShader [] [] []).mainfile = false ∧
    value (PrepareShaderEditing caseVariantShader [] [] []).files
      (PrepareShaderEditing caseVariantShader [] [] []).mainfile = [] ∧
    saveCallback 0 (PrepareShaderEditing caseVariantShader [] [] []).files
      (PrepareShaderEditing caseVariantShader [] [] []).mainfile = some (Outcome.build []) := by
  refine ⟨by decide, by decide, by decide, by decide⟩

end PipelineStateViewer
